import Mathlib

/-
  Verification development for the heterogeneous_groups repository.

  The embedding follows src/lib/works/asm/heterogeneous_groups/grouping.py
  (class HeterogeneousGrouper).  Python floats are modelled as rationals,
  Python dicts as association lists in insertion order, and the exceptions
  the code can actually raise (ZeroDivisionError, KeyError, ValueError on
  an empty min or max, TypeError on an empty reduce) as an explicit error
  type.  Records are modelled with total accessor functions: the spec makes
  presence of every schema key in every record a precondition.
-/

/-- The runtime faults reachable in grouping.py, plus a fuel marker used by
the loop embedding for a case that is proved unreachable. -/
inductive PyErr where
  | zeroDivisionError
  | keyError
  | valueError
  | typeError
  | fuelOut
deriving DecidableEq, Repr

/-- Result of a computation that can raise. -/
inductive Res (α : Type) where
  | ok (a : α)
  | err (e : PyErr)
deriving DecidableEq, Repr

/-- A pair of float bounds, as in Boundaries and ValuePair. -/
structure Bnds where
  lower : ℚ
  upper : ℚ
deriving DecidableEq, Repr

/-- NumericProperty: key, weight, optional measurement bounds, scale bounds
(default 0 to 1 in the source). -/
structure NProp where
  key : String
  weight : ℚ
  measurement_bounds : Option Bnds
  scale_bounds : Bnds
deriving DecidableEq, Repr

/-- CategoricalProperty: key, weight, optional nested similarity table,
modelled as an association list of association lists in insertion order. -/
structure CProp where
  key : String
  weight : ℚ
  similarities : Option (List (String × List (String × ℚ)))
deriving DecidableEq, Repr

/-- One data record.  The identifier value is the id field; numeric and
categorical field access is total, mirroring the precondition that every
record carries every schema key. -/
structure Item where
  id : String
  fnum : String → ℚ
  fcat : String → String

/-- The grouper state after init: retained data and the property lists. -/
structure HeterogeneousGrouper where
  data : List Item
  nprops : List NProp
  cprops : List CProp

/-- Association-list lookup, the embedding of a Python dict read. -/
def alook {α : Type} : List (String × α) → String → Option α
  | [], _ => none
  | (k, v) :: r, s => if k = s then some v else alook r s

/-- Keys of a dict comprehension over a list with duplicates: first
occurrence wins and fixes the position. -/
def firstDedup : List String → List String
  | [] => []
  | x :: xs => x :: (firstDedup xs).filter (fun y => y ≠ x)

/-- The row and column ids of grid and matrix: item identifiers in first
occurrence order. -/
def uids (g : HeterogeneousGrouper) : List String :=
  firstDedup (g.data.map (·.id))

/-- Placeholder item, never reached when the id is present in the data. -/
def defaultItem : Item :=
  { id := "", fnum := fun _ => 0, fcat := fun _ => "" }

/-- The record whose values end up stored under an id: repeated dict
assignment in data order means the last item with that id wins. -/
def lastItem (g : HeterogeneousGrouper) (i : String) : Item :=
  g.data.foldl (fun acc it => if it.id = i then it else acc) defaultItem

/-- Python min over a list of rationals: none on the empty list. -/
def listMin : List ℚ → Option ℚ
  | [] => none
  | x :: xs => some (xs.foldl min x)

/-- Python max over a list of rationals: none on the empty list. -/
def listMax : List ℚ → Option ℚ
  | [] => none
  | x :: xs => some (xs.foldl max x)

/-- Effective lower measurement bound of a numeric property: explicit
bounds when present, else the batch minimum over the whole data list. -/
def elower (g : HeterogeneousGrouper) (p : NProp) : ℚ :=
  match p.measurement_bounds with
  | some b => b.lower
  | none => (listMin (g.data.map fun it => it.fnum p.key)).getD 0

/-- Effective upper measurement bound of a numeric property. -/
def eupper (g : HeterogeneousGrouper) (p : NProp) : ℚ :=
  match p.measurement_bounds with
  | some b => b.upper
  | none => (listMax (g.data.map fun it => it.fnum p.key)).getD 0

/-- The fault processing one numeric property in scaled_grid: ValueError
when bounds are absent and the batch is empty (min of an empty list),
ZeroDivisionError when the batch is nonempty and the effective bounds
coincide (the per item divisions run then). -/
def npropErr (g : HeterogeneousGrouper) (p : NProp) : Option PyErr :=
  match p.measurement_bounds, g.data with
  | none, [] => some PyErr.valueError
  | _, [] => none
  | _, _ :: _ =>
    if eupper g p - elower g p = 0 then some PyErr.zeroDivisionError else none

/-- First fault raised by scaled_grid, scanning numeric properties in
order; the categorical pass cannot fault in this model. -/
def scaledGridErr (g : HeterogeneousGrouper) : Option PyErr :=
  g.nprops.findSome? (npropErr g)

/-- The normalized numeric grid value for an id and numeric property. -/
def gval (g : HeterogeneousGrouper) (i : String) (p : NProp) : ℚ :=
  ((lastItem g i).fnum p.key - elower g p) / (eupper g p - elower g p) *
    (p.scale_bounds.upper - p.scale_bounds.lower) + p.scale_bounds.lower

/-- The categorical grid value for an id and categorical property. -/
def cval (g : HeterogeneousGrouper) (i : String) (p : CProp) : String :=
  (lastItem g i).fcat p.key

/-- scaled_grid: per id, the categorical values and the rescaled numeric
values, or the first fault. -/
def scaled_grid (g : HeterogeneousGrouper) :
    Res (List (String × (List (String × String) × List (String × ℚ)))) :=
  match scaledGridErr g with
  | some e => .err e
  | none => .ok ((uids g).map fun i =>
      (i, (g.cprops.map fun cp => (cp.key, cval g i cp),
           g.nprops.map fun p => (p.key, gval g i p))))

/-- Nested similarity lookup; the falsy empty dict and the two membership
tests collapse to whether the chained lookup succeeds. -/
def simLookup (s : Option (List (String × List (String × ℚ)))) (a b : String) : Option ℚ :=
  match s with
  | none => none
  | some t =>
    match alook t a with
    | none => none
    | some r => alook r b

/-- Categorical contribution before weighting: the stored similarity when
the chained lookup succeeds, else 0 on literal equality, else 1. -/
def catContrib (cp : CProp) (vi vj : String) : ℚ :=
  match simLookup cp.similarities vi vj with
  | some s => s
  | none => if vi = vj then 0 else 1

/-- Numeric contribution of one property to a matrix cell. -/
def nContrib (g : HeterogeneousGrouper) (p : NProp) (i j : String) : ℚ :=
  p.weight * |gval g i p - gval g j p| / (p.scale_bounds.upper - p.scale_bounds.lower)

/-- The value of one cell of the difference matrix. -/
def mval (g : HeterogeneousGrouper) (i j : String) : ℚ :=
  ((g.nprops.map fun p => nContrib g p i j).sum +
   (g.cprops.map fun cp => cp.weight * catContrib cp (cval g i cp) (cval g j cp)).sum) /
    (g.nprops.length + g.cprops.length)

/-- First fault raised by difference_matrix: the scaled_grid fault, then,
when there is at least one cell, a ZeroDivisionError from a degenerate
scale range of some numeric property, then one from an empty property
list (the final division by the property count). -/
def dmErr (g : HeterogeneousGrouper) : Option PyErr :=
  match scaledGridErr g with
  | some e => some e
  | none =>
    if uids g = [] then none
    else
      match g.nprops.findSome? (fun p =>
          if p.scale_bounds.upper - p.scale_bounds.lower = 0
          then some PyErr.zeroDivisionError else none) with
      | some e => some e
      | none =>
        if g.nprops.length + g.cprops.length = 0 then some PyErr.zeroDivisionError
        else none

/-- difference_matrix: the full square matrix over the ids, or the first
fault. -/
def difference_matrix (g : HeterogeneousGrouper) :
    Res (List (String × List (String × ℚ))) :=
  match dmErr g with
  | some e => .err e
  | none => .ok ((uids g).map fun i => (i, (uids g).map fun j => (j, mval g i j)))

/-- The working matrix of the grouping loop: for each row id, the column
ids still present.  Cell values never change, so they stay in a separate
value function. -/
abbrev WM := List (String × List String)

/-- Initial working matrix: every row holds every id. -/
def initWM (g : HeterogeneousGrouper) : WM :=
  (uids g).map fun i => (i, uids g)

/-- The reduce that picks a maximal key of one row: the accumulator is
kept only under strictly greater, so a tie moves to the later key. -/
def rowPick (v : String → String → ℚ) (r : String) : List String → Option String
  | [] => none
  | k :: ks => some (ks.foldl (fun acc cur => if v r acc > v r cur then acc else cur) k)

/-- Sequence a list of optional values, stopping at the first none. -/
def optSeq {α : Type} : List (Option α) → Option (List α)
  | [] => some []
  | none :: _ => none
  | some a :: r => (optSeq r).map (a :: ·)

/-- All row picks, one per row; none embeds the TypeError of a reduce
over an empty row. -/
def picksOf (v : String → String → ℚ) (M : WM) : Option (List (String × String)) :=
  optSeq (M.map fun rc => (rowPick v rc.1 rc.2).map fun j => (rc.1, j))

/-- The max over the row picks keyed by cell value: Python max keeps the
current best unless the candidate is strictly greater, so the first
maximal row wins. -/
def globalPick (v : String → String → ℚ) (M : WM) : Res (String × String) :=
  match picksOf v M with
  | none => .err PyErr.typeError
  | some [] => .err PyErr.valueError
  | some (p :: ps) =>
    .ok (ps.foldl (fun best cand => if v cand.1 cand.2 > v best.1 best.2 then cand else best) p)

/-- Remove one cell of the working matrix; KeyError when the row or the
column key is absent. -/
def popEntry (M : WM) (i j : String) : Res WM :=
  match alook M i with
  | none => .err PyErr.keyError
  | some ks =>
    if j ∈ ks then
      .ok (M.map fun rc => if rc.1 = i then (rc.1, rc.2.erase j) else rc)
    else .err PyErr.keyError

/-- The cluster map: group key to ordered member list. -/
abbrev Groups := List (ℕ × List String)

/-- Initial clusters: one singleton per data item, keyed by position. -/
def initGroups (g : HeterogeneousGrouper) : Groups :=
  (List.range g.data.length).zip (g.data.map fun it => [it.id])

/-- The reduce locating the group of an item: starts from the first key
and replaces the accumulator by every key whose members contain the item,
so the last such key wins. -/
def cGroupOf (c : Groups) (x : String) : Option ℕ :=
  match c with
  | [] => none
  | (k0, _) :: _ => some (c.foldl (fun acc kc => if x ∈ kc.2 then kc.1 else acc) k0)

/-- Merge: extend the members of group h with those of group k, then drop
group k. -/
def mergeGroups (c : Groups) (h k : ℕ) : Groups :=
  let mk := ((c.find? fun e => e.1 = k).map Prod.snd).getD []
  (c.map fun e => if e.1 = h then (e.1, e.2 ++ mk) else e).filter fun e => e.1 ≠ k

/-- One merge decision of the loop: merge exactly when the two located
groups differ; there is no size condition. -/
def groupStep (c : Groups) (mi mj : String) : Groups :=
  match cGroupOf c mi, cGroupOf c mj with
  | some h, some k => if h = k then c else mergeGroups c h k
  | _, _ => c

/-- The while condition: more groups than requested and some nonempty
row. -/
def loopCond (g : ℕ) (M : WM) (c : Groups) : Bool :=
  decide (g < c.length) && M.any fun rc => !rc.2.isEmpty

/-- The grouping loop with fuel; the fuel marker is proved unreachable
for the fuel the entry point supplies. -/
def gLoop (v : String → String → ℚ) (g : ℕ) : ℕ → WM → Groups → Res Groups
  | 0, M, c => if loopCond g M c then .err PyErr.fuelOut else .ok c
  | fuel + 1, M, c =>
    if loopCond g M c then
      match globalPick v M with
      | .err e => .err e
      | .ok (mi, mj) =>
        match popEntry M mi mj with
        | .err e => .err e
        | .ok M1 =>
          match popEntry M1 mj mi with
          | .err e => .err e
          | .ok M2 => gLoop v g fuel M2 (groupStep c mi mj)
    else .ok c

/-- group_algorithm_number: build the difference matrix, then run the
bounded agglomerative loop. -/
def group_algorithm_number (gr : HeterogeneousGrouper) (g : ℕ) : Res Groups :=
  match difference_matrix gr with
  | .err e => .err e
  | .ok _ =>
    gLoop (mval gr) g ((uids gr).length * (uids gr).length + 1) (initWM gr) (initGroups gr)

/-- The row maximum the spec asks for: the accumulator moves only under
strictly greater, so the first seen maximum wins ties.  Stated from the
spec wording, to compare against rowPick. -/
def rowPickFirstWins (v : String → String → ℚ) (r : String) : List String → Option String
  | [] => none
  | k :: ks => some (ks.foldl (fun acc cur => if v r cur > v r acc then cur else acc) k)

/-- The pair selection the spec asks for: first wins row scan inside each
row, first wins across rows.  Stated from the spec wording, to compare
against globalPick. -/
def maxPairFirstWins (v : String → String → ℚ) (M : WM) : Option (String × String) :=
  match optSeq (M.map fun rc => (rowPickFirstWins v rc.1 rc.2).map fun j => (rc.1, j)) with
  | none => none
  | some [] => none
  | some (p :: ps) =>
    some (ps.foldl (fun best cand => if v cand.1 cand.2 > v best.1 best.2 then cand else best) p)

/-- r is the last element of l attaining the maximum of f over l. -/
def isLastArgmax {α : Type} (f : α → ℚ) (l : List α) (r : α) : Prop :=
  ∃ l1 l2, l = l1 ++ r :: l2 ∧ (∀ x ∈ l, f x ≤ f r) ∧ ∀ x ∈ l2, f x < f r

/-- r is the first element of l attaining the maximum of f over l. -/
def isFirstArgmax {α : Type} (f : α → ℚ) (l : List α) (r : α) : Prop :=
  ∃ l1 l2, l = l1 ++ r :: l2 ∧ (∀ x ∈ l, f x ≤ f r) ∧ ∀ x ∈ l1, f x < f r

/-- Modelled from the spec: all combinations of the given size from an id
list, in the lexicographic enumeration order over the input ordering that
the spec fixes for the seed search of the same size strategy.  The
implementation of that strategy is absent from src, only its callers and
tests appear there. -/
def combinations : ℕ → List String → List (List String)
  | 0, _ => [[]]
  | _ + 1, [] => []
  | k + 1, x :: xs => (combinations k xs).map (x :: ·) ++ combinations (k + 1) xs

/-- Modelled from the spec: the sum of pairwise dissimilarities among the
members of a candidate seed set. -/
def pairScore (v : String → String → ℚ) : List String → ℚ
  | [] => 0
  | x :: xs => (xs.map fun y => v x y).sum + pairScore v xs

/-- Modelled from the spec: the first combination minimizing the pairwise
sum, under strict less comparison so the first minimal combination wins. -/
def bestSeeds (v : String → String → ℚ) (k : ℕ) (ids : List String) :
    Option (List String) :=
  match combinations k ids with
  | [] => none
  | c :: cs =>
    some (cs.foldl (fun best cand => if pairScore v cand < pairScore v best then cand else best) c)

/-- Modelled from the spec: cumulative dissimilarity of an item to the
members of a group. -/
def scoreTo (v : String → String → ℚ) (it : String) (mem : List String) : ℚ :=
  (mem.map fun m => v it m).sum

/-- Members of the group with the given key. -/
def groupMembers (grps : Groups) (k : ℕ) : List String :=
  ((grps.find? fun e => e.1 = k).map Prod.snd).getD []

/-- Modelled from the spec: among every pair of an ungrouped item and an
unassigned group, the one maximizing cumulative dissimilarity, scanning
items outer and groups inner, first wins under strict greater. -/
def pickPair (v : String → String → ℚ) (grps : Groups) (ung : List String)
    (unas : List ℕ) : Option (String × ℕ) :=
  match ung.flatMap fun it => unas.map fun k => (it, k) with
  | [] => none
  | p :: ps =>
    some (ps.foldl (fun best cand =>
      if scoreTo v cand.1 (groupMembers grps cand.2) >
         scoreTo v best.1 (groupMembers grps best.2) then cand else best) p)

/-- Append an item to the members of the group with the given key. -/
def assignTo (grps : Groups) (k : ℕ) (it : String) : Groups :=
  grps.map fun e => if e.1 = k then (e.1, e.2 ++ [it]) else e

/-- Modelled from the spec: one round of the same size strategy; within a
round every group receives at most one new member. -/
def innerRound (v : String → String → ℚ) :
    ℕ → Groups → List String → List ℕ → Groups × List String
  | 0, grps, ung, _ => (grps, ung)
  | fuel + 1, grps, ung, unas =>
    match pickPair v grps ung unas with
    | none => (grps, ung)
    | some (it, k) => innerRound v fuel (assignTo grps k it) (ung.erase it) (unas.erase k)

/-- Modelled from the spec: repeat rounds until no ungrouped item is
left. -/
def roundsLoop (v : String → String → ℚ) : ℕ → Groups → List String → Option Groups
  | 0, grps, ung => if ung.isEmpty then some grps else none
  | fuel + 1, grps, ung =>
    if ung.isEmpty then some grps
    else
      roundsLoop v fuel (innerRound v ung.length grps ung (grps.map Prod.fst)).1
        (innerRound v ung.length grps ung (grps.map Prod.fst)).2

/-- Modelled from the spec: the seeded round robin equal size strategy
with the seed set anchoring each group; absent from src, where only its
callers and tests appear. -/
def sameSizeApprox (v : String → String → ℚ) (ids : List String) (k : ℕ) : Option Groups :=
  match bestSeeds v k ids with
  | none => none
  | some seeds =>
    roundsLoop v (ids.length + 1)
      ((List.range seeds.length).zip (seeds.map fun s => [s]))
      (ids.filter fun i => i ∉ seeds)

/-- Modelled from the spec: the strategy entry point consumes the
dissimilarity matrix the same way the number strategy does. -/
def group_algorithm_same_size_best_approximation (gr : HeterogeneousGrouper) (k : ℕ) :
    Res Groups :=
  match difference_matrix gr with
  | .err e => .err e
  | .ok _ =>
    match sameSizeApprox (mval gr) (uids gr) k with
    | some r => .ok r
    | none => .err PyErr.fuelOut

/-- The worked scenario of the spec: two records, one weighted numeric
property with bounds 0 to 10, one plain categorical property, one
categorical property with similarity one quarter between val1 and val2. -/
def workedScenario : HeterogeneousGrouper :=
  { data :=
      [ { id := "id1", fnum := fun k => if k = "n" then 2 else 0,
          fcat := fun k => if k = "c1" then "me" else if k = "c2" then "val1" else "" },
        { id := "id2", fnum := fun k => if k = "n" then 7 else 0,
          fcat := fun k => if k = "c1" then "you" else if k = "c2" then "val2" else "" } ],
    nprops := [ { key := "n", weight := 1/10, measurement_bounds := some ⟨0, 10⟩,
                  scale_bounds := ⟨0, 1⟩ } ],
    cprops := [ { key := "c1", weight := 1, similarities := none },
                { key := "c2", weight := 1,
                  similarities := some [("val1", [("val2", 1/4)]), ("val2", [("val1", 1/4)])] } ] }

/-- Categorical property of the C2 counterexample: a commutative
similarity table realizing a chosen symmetric difference pattern. -/
def kcpC2 : CProp :=
  { key := "k", weight := 1,
    similarities := some
      [ ("va", [("vb", 9/10), ("vc", 8/10), ("vd", 1/10)]),
        ("vb", [("va", 9/10), ("vc", 1/10), ("vd", 2/10)]),
        ("vc", [("va", 8/10), ("vb", 1/10), ("vd", 3/10)]),
        ("vd", [("va", 1/10), ("vb", 2/10), ("vc", 3/10)]) ] }

/-- Four records with pairwise distinct categorical values. -/
def cexC2 : HeterogeneousGrouper :=
  { data :=
      [ { id := "a", fnum := fun _ => 0, fcat := fun _ => "va" },
        { id := "b", fnum := fun _ => 0, fcat := fun _ => "vb" },
        { id := "c", fnum := fun _ => 0, fcat := fun _ => "vc" },
        { id := "d", fnum := fun _ => 0, fcat := fun _ => "vd" } ],
    nprops := [],
    cprops := [kcpC2] }

/-- The categorical value stored for each id of cexC2. -/
def cmapC2 : String → String := fun i =>
  if i = "a" then "va" else if i = "b" then "vb"
  else if i = "c" then "vc" else if i = "d" then "vd" else ""

/-- Compact form of the matrix cells of cexC2. -/
def vC2 : String → String → ℚ := fun i j => catContrib kcpC2 (cmapC2 i) (cmapC2 j)

/-- Two records with distinct categorical values, used where only the
degenerate loop behavior matters. -/
def cexC3 : HeterogeneousGrouper :=
  { data :=
      [ { id := "p", fnum := fun _ => 0, fcat := fun _ => "u" },
        { id := "q", fnum := fun _ => 0, fcat := fun _ => "w" } ],
    nprops := [],
    cprops := [ { key := "c1", weight := 1, similarities := none } ] }

/-- One record and a numeric property whose explicit measurement bounds
coincide. -/
def cexC4 : HeterogeneousGrouper :=
  { data := [ { id := "a", fnum := fun _ => 5, fcat := fun _ => "" } ],
    nprops := [ { key := "n", weight := 1, measurement_bounds := some ⟨5, 5⟩,
                  scale_bounds := ⟨0, 1⟩ } ],
    cprops := [] }

/-- Three records with three pairwise distinct categorical values: every
off diagonal cell is 1, every diagonal cell 0, so the first row carries a
tie between its two off diagonal cells. -/
def cexC5 : HeterogeneousGrouper :=
  { data :=
      [ { id := "a", fnum := fun _ => 0, fcat := fun _ => "pa" },
        { id := "b", fnum := fun _ => 0, fcat := fun _ => "qb" },
        { id := "c", fnum := fun _ => 0, fcat := fun _ => "rc" } ],
    nprops := [],
    cprops := [ { key := "k", weight := 1, similarities := none } ] }

/-- The categorical value stored for each id of cexC5. -/
def cmapC5 : String → String := fun i =>
  if i = "a" then "pa" else if i = "b" then "qb" else if i = "c" then "rc" else ""

/-- Compact form of the matrix cells of cexC5: 0 on equal stored values,
1 otherwise. -/
def vC5 : String → String → ℚ := fun i j => if cmapC5 i = cmapC5 j then 0 else 1

/-- One record whose categorical value has a self entry in the similarity
table. -/
def cexC8 : HeterogeneousGrouper :=
  { data := [ { id := "w", fnum := fun _ => 0, fcat := fun _ => "x" } ],
    nprops := [],
    cprops := [ { key := "c", weight := 1, similarities := some [("x", [("x", 1/2)])] } ] }

/-- Categorical property of the C10 counterexample: a commutative table
with a self entry making one diagonal cell dominate every other cell. -/
def kcpC10 : CProp :=
  { key := "k", weight := 1,
    similarities := some [("v", [("v", 9/10), ("u", 1/10)]), ("u", [("v", 1/10)])] }

/-- Three records whose difference matrix is nonnegative but has a
dominant nonzero diagonal cell. -/
def cexC10 : HeterogeneousGrouper :=
  { data :=
      [ { id := "x", fnum := fun _ => 0, fcat := fun _ => "v" },
        { id := "y", fnum := fun _ => 0, fcat := fun _ => "u" },
        { id := "z", fnum := fun _ => 0, fcat := fun _ => "u" } ],
    nprops := [],
    cprops := [kcpC10] }

/-- The categorical value stored for each id of cexC10. -/
def cmapC10 : String → String := fun i =>
  if i = "x" then "v" else if i = "y" then "u" else if i = "z" then "u" else ""

/-- Compact form of the matrix cells of cexC10. -/
def vC10 : String → String → ℚ := fun i j => catContrib kcpC10 (cmapC10 i) (cmapC10 j)

/-- Two records over one numeric property without measurement bounds,
batch minimum 1 and maximum 3. -/
def wexN : HeterogeneousGrouper :=
  { data :=
      [ { id := "a", fnum := fun _ => 1, fcat := fun _ => "" },
        { id := "b", fnum := fun _ => 3, fcat := fun _ => "" } ],
    nprops := [ { key := "n", weight := 1, measurement_bounds := none,
                  scale_bounds := ⟨0, 1⟩ } ],
    cprops := [] }

/-- Two records over one plain categorical property. -/
def wex7 : HeterogeneousGrouper :=
  { data :=
      [ { id := "p", fnum := fun _ => 0, fcat := fun _ => "u" },
        { id := "q", fnum := fun _ => 0, fcat := fun _ => "w" } ],
    nprops := [],
    cprops := [ { key := "c1", weight := 1, similarities := none } ] }

/-- The remaining column ids of a row of the working matrix. -/
def rowOf (M : WM) (i : String) : List String := (alook M i).getD []

/-- Two ids lying in one group entry. -/
def sameGroup (c : Groups) (i j : String) : Prop := ∃ e ∈ c, i ∈ e.2 ∧ j ∈ e.2

/-- Working matrix invariant of the grouping loop: rows are exactly the
id list, every row is an ordered sublist of the id list containing its
own diagonal, and presence of cells is symmetric. -/
def WMInv (L : List String) (M : WM) : Prop :=
  M.map Prod.fst = L ∧ (∀ rc ∈ M, rc.2.Sublist L ∧ rc.1 ∈ rc.2) ∧
  ∀ i ∈ L, ∀ j ∈ L, (j ∈ rowOf M i ↔ i ∈ rowOf M j)

/-- Cluster map invariant of the grouping loop: distinct group keys,
nonempty member lists, and the members together are exactly the ids. -/
def GInv (L : List String) (c : Groups) : Prop :=
  (c.map Prod.fst).Nodup ∧ (∀ e ∈ c, e.2 ≠ []) ∧
  ((c.flatMap Prod.snd : List String) : Multiset String) = (L : Multiset String)

/-- Cross pair invariant: ids in different groups still face each other
in the working matrix. -/
def XInv (L : List String) (M : WM) (c : Groups) : Prop :=
  ∀ i ∈ L, ∀ j ∈ L, ¬ sameGroup c i j → j ∈ rowOf M i

/-- Total number of cells left in the working matrix. -/
def measWM (M : WM) : ℕ := (M.map fun rc => rc.2.length).sum

/-- findSome? returns b when some member maps to some b and every member
can only map to none or some b. -/
theorem findSome?_eq_of_mem {α β : Type} (f : α → Option β) (l : List α) (a : α) (b : β)
    (ha : a ∈ l) (hfa : f a = some b) (huniq : ∀ x ∈ l, ∀ y, f x = some y → y = b) :
    l.findSome? f = some b := by
  induction l with
  | nil => cases ha
  | cons h t ih =>
    rw [List.findSome?_cons]
    cases hfh : f h with
    | some y =>
      have := huniq h (List.mem_cons_self _ _) y hfh
      simp [this]
    | none =>
      have hat : a ∈ t := by
        rcases List.mem_cons.1 ha with rfl | hat
        · rw [hfa] at hfh; cases hfh
        · exact hat
      exact ih hat fun x hx => huniq x (List.mem_cons_of_mem _ hx)

/-- A findSome? that comes out none maps every member to none. -/
theorem findSome?_forall_none {α β : Type} (f : α → Option β) (l : List α)
    (h : l.findSome? f = none) : ∀ x ∈ l, f x = none := by
  induction l with
  | nil => intro x hx; cases hx
  | cons a t ih =>
    intro x hx
    rw [List.findSome?_cons] at h
    cases hfa : f a with
    | some y => rw [hfa] at h; cases h
    | none =>
      rw [hfa] at h
      rcases List.mem_cons.1 hx with rfl | hxt
      · exact hfa
      · exact ih h x hxt

/-- An empty data list gives an empty id list. -/
theorem uids_nil (g : HeterogeneousGrouper) (h : g.data = []) : uids g = [] := by
  simp [uids, h, firstDedup]

/-- The initial cluster map has one entry per data item. -/
theorem initGroups_length (g : HeterogeneousGrouper) :
    (initGroups g).length = g.data.length := by
  simp [initGroups]

/-- C1.  The claim asserts the categorical contribution is weight times
one minus the stored similarity and that the worked scenario matrix cell
is 0.6.  The code adds weight times the stored similarity itself, so the
worked scenario matrix cell is 13/30, not 3/5: this evaluation exhibits
the divergence the repository test suite also pins at 0.6. -/
theorem c1_worked_scenario_matrix :
    difference_matrix workedScenario =
      .ok [("id1", [("id1", 0), ("id2", 13/30)]), ("id2", [("id1", 13/30), ("id2", 0)])] ∧
    (13/30 : ℚ) ≠ 3/5 := by
  constructor
  · norm_num +decide [difference_matrix, dmErr, scaledGridErr, npropErr, uids, firstDedup,
      mval, nContrib, gval, cval, catContrib, simLookup, alook, elower, eupper,
      lastItem, defaultItem, listMin, listMax, workedScenario, abs_of_nonneg, abs_of_nonpos]
  · norm_num

/-- C4 counterexample.  On coincident explicit measurement bounds the
code fails with the uncaught ZeroDivisionError, the plain arithmetic
fault; no DegenerateBoundsError exists anywhere in the code. -/
theorem c4_counterexample :
    scaled_grid cexC4 = .err PyErr.zeroDivisionError := by
  norm_num +decide [scaled_grid, scaledGridErr, npropErr, eupper, elower, cexC4]

/-- C4 amended.  Whenever the batch is nonempty and some numeric property
has coincident effective bounds, scaled_grid fails, and the failure is
the uncaught ZeroDivisionError. -/
theorem c4_amended (g : HeterogeneousGrouper) (hne : g.data ≠ [])
    (hdeg : ∃ p ∈ g.nprops, eupper g p - elower g p = 0) :
    scaled_grid g = .err PyErr.zeroDivisionError := by
  obtain ⟨p, hp, hdp⟩ := hdeg
  obtain ⟨d, ds, hds⟩ := List.exists_cons_of_ne_nil hne
  have hnp : npropErr g p = some PyErr.zeroDivisionError := by
    unfold npropErr
    rw [hds]
    cases p.measurement_bounds <;> simp [hdp]
  have huniq : ∀ x ∈ g.nprops, ∀ y, npropErr g x = some y → y = PyErr.zeroDivisionError := by
    intro x _ y hy
    unfold npropErr at hy
    rw [hds] at hy
    cases x.measurement_bounds <;> simp only at hy <;>
      [skip; skip] <;> split at hy <;> simp_all
  have herr : scaledGridErr g = some PyErr.zeroDivisionError :=
    findSome?_eq_of_mem _ _ p _ hp hnp huniq
  unfold scaled_grid
  rw [herr]

/-- C4 witness: the amended statement at the concrete degenerate input. -/
theorem c4_witness :
    cexC4.data ≠ [] ∧ (∃ p ∈ cexC4.nprops, eupper cexC4 p - elower cexC4 p = 0) ∧
    scaled_grid cexC4 = .err PyErr.zeroDivisionError := by
  refine ⟨by simp [cexC4], ⟨⟨"n", 1, some ⟨5, 5⟩, ⟨0, 1⟩⟩, by simp [cexC4], by
    norm_num [eupper, elower]⟩, c4_amended cexC4 (by simp [cexC4])
      ⟨⟨"n", 1, some ⟨5, 5⟩, ⟨0, 1⟩⟩, by simp [cexC4], by norm_num [eupper, elower]⟩⟩

/-- C3 counterexample.  With two items and three requested groups the
number strategy raises nothing: it silently returns the two singleton
groups instead of failing with TooManyGroups; no group count validation
exists in the code. -/
theorem c3_counterexample :
    group_algorithm_number cexC3 3 = .ok [(0, ["p"]), (1, ["q"])] := by
  norm_num +decide [group_algorithm_number, difference_matrix, dmErr, scaledGridErr,
    gLoop, loopCond, initWM, initGroups, uids, firstDedup, cexC3]

/-- C3 amended.  The number strategy validates nothing: whenever the
requested count is at least the item count and the matrix computation
succeeds, it returns every item as its own singleton group, raising
neither InvalidGroupCount nor TooManyGroups, which do not exist in the
code. -/
theorem c3_amended (gr : HeterogeneousGrouper) (k : ℕ) (hok : dmErr gr = none)
    (hk : gr.data.length ≤ k) :
    group_algorithm_number gr k = .ok (initGroups gr) := by
  have hcond : loopCond k (initWM gr) (initGroups gr) = false := by
    unfold loopCond
    have h1 : ¬ k < (initGroups gr).length := by rw [initGroups_length]; omega
    simp [h1]
  unfold group_algorithm_number difference_matrix
  rw [hok]
  simp [gLoop, hcond]

/-- C3 witness: the amended statement at the concrete two item input. -/
theorem c3_witness :
    dmErr cexC3 = none ∧ cexC3.data.length ≤ 5 ∧
    group_algorithm_number cexC3 5 = .ok (initGroups cexC3) := by
  have hok : dmErr cexC3 = none := by
    norm_num +decide [dmErr, scaledGridErr, uids, firstDedup, cexC3]
  exact ⟨hok, by simp [cexC3], c3_amended cexC3 5 hok (by simp [cexC3])⟩

/-- C8 counterexample.  The diagonal is not forced to zero: a self entry
in a similarity table makes the single diagonal cell of this one item
batch equal to one half. -/
theorem c8_counterexample :
    difference_matrix cexC8 = .ok [("w", [("w", 1/2)])] ∧ (1/2 : ℚ) ≠ 0 := by
  constructor
  · norm_num +decide [difference_matrix, dmErr, scaledGridErr, uids, firstDedup,
      mval, nContrib, gval, cval, catContrib, simLookup, alook, elower, eupper,
      lastItem, defaultItem, listMin, listMax, cexC8]
  · norm_num

/-- C8 amended.  The diagonal cell of an item is zero exactly when no
categorical property carries a self entry for the stored value of that
item; the numeric contributions vanish on the diagonal unconditionally. -/
theorem c8_amended (g : HeterogeneousGrouper) (i : String)
    (hns : ∀ cp ∈ g.cprops, simLookup cp.similarities (cval g i cp) (cval g i cp) = none) :
    mval g i i = 0 := by
  unfold mval
  have hn : (g.nprops.map fun p => nContrib g p i i).sum = 0 := by
    apply List.sum_eq_zero
    intro x hx
    obtain ⟨p, _, rfl⟩ := List.mem_map.1 hx
    simp [nContrib]
  have hc : (g.cprops.map fun cp =>
      cp.weight * catContrib cp (cval g i cp) (cval g i cp)).sum = 0 := by
    apply List.sum_eq_zero
    intro x hx
    obtain ⟨cp, hcp, rfl⟩ := List.mem_map.1 hx
    unfold catContrib
    rw [hns cp hcp]
    simp
  rw [hn, hc]
  simp

/-- C8 witness: the amended statement at a concrete input with no
similarity tables. -/
theorem c8_witness :
    (∀ cp ∈ wex7.cprops, simLookup cp.similarities (cval wex7 "p" cp) (cval wex7 "p" cp) = none) ∧
    mval wex7 "p" "p" = 0 := by
  have hns : ∀ cp ∈ wex7.cprops,
      simLookup cp.similarities (cval wex7 "p" cp) (cval wex7 "p" cp) = none := by
    intro cp hcp
    simp only [wex7, List.mem_singleton] at hcp
    subst hcp
    simp [simLookup]
  exact ⟨hns, c8_amended wex7 "p" hns⟩

/-- C9.  With nonnegative weights and a similarity table that is
symmetric in the sense the schema promises, the difference matrix is
symmetric in its two ids. -/
theorem c9_symmetric (g : HeterogeneousGrouper)
    (hw : ∀ p ∈ g.nprops, 0 ≤ p.weight) (hwc : ∀ cp ∈ g.cprops, 0 ≤ cp.weight)
    (hsym : ∀ cp ∈ g.cprops, ∀ a b, simLookup cp.similarities a b = simLookup cp.similarities b a) :
    ∀ i j, mval g i j = mval g j i := by
  intro i j
  unfold mval
  have hn : (g.nprops.map fun p => nContrib g p i j) = g.nprops.map fun p => nContrib g p j i := by
    apply List.map_congr_left
    intro p _
    unfold nContrib
    rw [abs_sub_comm]
  have hc : (g.cprops.map fun cp => cp.weight * catContrib cp (cval g i cp) (cval g j cp)) =
      g.cprops.map fun cp => cp.weight * catContrib cp (cval g j cp) (cval g i cp) := by
    apply List.map_congr_left
    intro cp hcp
    unfold catContrib
    rw [hsym cp hcp (cval g i cp) (cval g j cp)]
    cases simLookup cp.similarities (cval g j cp) (cval g i cp) with
    | some s => rfl
    | none => simp [eq_comm]
  rw [hn, hc]

/-- C9 witness: symmetry at a concrete input. -/
theorem c9_witness :
    (∀ p ∈ wex7.nprops, 0 ≤ p.weight) ∧ (∀ cp ∈ wex7.cprops, 0 ≤ cp.weight) ∧
    (∀ cp ∈ wex7.cprops, ∀ a b,
      simLookup cp.similarities a b = simLookup cp.similarities b a) ∧
    ∀ i j, mval wex7 i j = mval wex7 j i := by
  have hw : ∀ p ∈ wex7.nprops, 0 ≤ p.weight := by simp [wex7]
  have hwc : ∀ cp ∈ wex7.cprops, 0 ≤ cp.weight := by
    intro cp hcp
    simp only [wex7, List.mem_singleton] at hcp
    subst hcp
    norm_num
  have hsym : ∀ cp ∈ wex7.cprops, ∀ a b,
      simLookup cp.similarities a b = simLookup cp.similarities b a := by
    intro cp hcp a b
    simp only [wex7, List.mem_singleton] at hcp
    subst hcp
    simp [simLookup]
  exact ⟨hw, hwc, hsym, c9_symmetric wex7 hw hwc hsym⟩

/-- C6.  The normalized value follows the linear rescale formula with the
effective bounds, and when measurement bounds are absent the batch
minimum lands exactly on the lower scale bound and the batch maximum on
the upper scale bound. -/
theorem c6_scaled_grid_formula (g : HeterogeneousGrouper) (p : NProp) (i : String)
    (hp : p ∈ g.nprops) (hi : i ∈ uids g) (hok : scaledGridErr g = none) :
    gval g i p = ((lastItem g i).fnum p.key - elower g p) / (eupper g p - elower g p) *
      (p.scale_bounds.upper - p.scale_bounds.lower) + p.scale_bounds.lower ∧
    (p.measurement_bounds = none →
      ((lastItem g i).fnum p.key = elower g p → gval g i p = p.scale_bounds.lower) ∧
      ((lastItem g i).fnum p.key = eupper g p → gval g i p = p.scale_bounds.upper)) := by
  have hne : g.data ≠ [] := by
    intro h
    rw [uids_nil g h] at hi
    cases hi
  have hdz : eupper g p - elower g p ≠ 0 := by
    have hnp : npropErr g p = none := findSome?_forall_none _ _ hok p hp
    obtain ⟨d, ds, hds⟩ := List.exists_cons_of_ne_nil hne
    unfold npropErr at hnp
    rw [hds] at hnp
    cases hb : p.measurement_bounds <;> rw [hb] at hnp <;> simp only at hnp <;>
      intro hc <;> rw [hc] at hnp <;> simp at hnp
  refine ⟨rfl, fun _ => ⟨fun hlo => ?_, fun hhi => ?_⟩⟩
  · unfold gval
    rw [hlo]
    simp
  · unfold gval
    rw [hhi, div_self hdz]
    ring

/-- C6 witness: the scaling statement at the two item batch with values
1 and 3 and no measurement bounds. -/
theorem c6_witness :
    (⟨"n", 1, none, ⟨0, 1⟩⟩ : NProp) ∈ wexN.nprops ∧ "a" ∈ uids wexN ∧
    scaledGridErr wexN = none ∧
    (gval wexN "a" ⟨"n", 1, none, ⟨0, 1⟩⟩ =
      ((lastItem wexN "a").fnum "n" - elower wexN ⟨"n", 1, none, ⟨0, 1⟩⟩) /
        (eupper wexN ⟨"n", 1, none, ⟨0, 1⟩⟩ - elower wexN ⟨"n", 1, none, ⟨0, 1⟩⟩) * (1 - 0) + 0 ∧
    ((⟨"n", 1, none, ⟨0, 1⟩⟩ : NProp).measurement_bounds = none →
      ((lastItem wexN "a").fnum "n" = elower wexN ⟨"n", 1, none, ⟨0, 1⟩⟩ →
        gval wexN "a" ⟨"n", 1, none, ⟨0, 1⟩⟩ = 0) ∧
      ((lastItem wexN "a").fnum "n" = eupper wexN ⟨"n", 1, none, ⟨0, 1⟩⟩ →
        gval wexN "a" ⟨"n", 1, none, ⟨0, 1⟩⟩ = 1))) := by
  have hp : (⟨"n", 1, none, ⟨0, 1⟩⟩ : NProp) ∈ wexN.nprops := by simp [wexN]
  have hi : "a" ∈ uids wexN := by simp +decide [uids, firstDedup, wexN]
  have hok : scaledGridErr wexN = none := by
    norm_num +decide [scaledGridErr, npropErr, eupper, elower, listMin, listMax, wexN]
  exact ⟨hp, hi, hok, c6_scaled_grid_formula wexN ⟨"n", 1, none, ⟨0, 1⟩⟩ "a" hp hi hok⟩

/-- Memberships in a cons append singleton list split into the old list
and the new element. -/
theorem mem_cons_append_singleton {α : Type} {x a b : α} {ls : List α}
    (hx : x ∈ a :: (ls ++ [b])) : x ∈ a :: ls ∨ x = b := by
  rcases List.mem_cons.1 hx with rfl | h1
  · exact Or.inl (List.mem_cons_self _ _)
  · rcases List.mem_append.1 h1 with h2 | h2
    · exact Or.inl (List.mem_cons_of_mem _ h2)
    · exact Or.inr (List.mem_singleton.1 h2)

/-- The strict greater keep the accumulator fold lands on the last
element attaining the maximum. -/
theorem foldl_lastwins {α : Type} (f : α → ℚ) (a : α) (l : List α) :
    isLastArgmax f (a :: l) (l.foldl (fun acc cur => if f acc > f cur then acc else cur) a) := by
  induction l using List.reverseRecOn with
  | nil => exact ⟨[], [], rfl, by simp, by simp⟩
  | append_singleton ls b ih =>
    rw [List.foldl_append, List.foldl_cons, List.foldl_nil]
    obtain ⟨l1, l2, hsplit, hle, hlt⟩ := ih
    by_cases hb : f (List.foldl (fun acc cur => if f acc > f cur then acc else cur) a ls) > f b
    · rw [if_pos hb]
      refine ⟨l1, l2 ++ [b], ?_, ?_, ?_⟩
      · rw [show a :: (ls ++ [b]) = (a :: ls) ++ [b] by simp, hsplit]
        simp
      · intro x hx
        rcases mem_cons_append_singleton hx with h2 | rfl
        · exact hle x h2
        · exact le_of_lt hb
      · intro x hx
        rcases List.mem_append.1 hx with h2 | h2
        · exact hlt x h2
        · rw [List.mem_singleton.1 h2]; exact hb
    · rw [if_neg hb]
      push_neg at hb
      refine ⟨a :: ls, [], by simp, ?_, by simp⟩
      intro x hx
      rcases mem_cons_append_singleton hx with h2 | rfl
      · exact le_trans (hle x h2) hb
      · exact le_refl _

/-- The strict greater replace the accumulator fold lands on the first
element attaining the maximum. -/
theorem foldl_firstwins {α : Type} (f : α → ℚ) (a : α) (l : List α) :
    isFirstArgmax f (a :: l) (l.foldl (fun best cand => if f cand > f best then cand else best) a) := by
  induction l using List.reverseRecOn with
  | nil => exact ⟨[], [], rfl, by simp, by simp⟩
  | append_singleton ls b ih =>
    rw [List.foldl_append, List.foldl_cons, List.foldl_nil]
    obtain ⟨l1, l2, hsplit, hle, hlt⟩ := ih
    by_cases hb : f b > f (List.foldl (fun best cand => if f cand > f best then cand else best) a ls)
    · rw [if_pos hb]
      refine ⟨a :: ls, [], by simp, ?_, ?_⟩
      · intro x hx
        rcases mem_cons_append_singleton hx with h2 | rfl
        · exact le_of_lt (lt_of_le_of_lt (hle x h2) hb)
        · exact le_refl _
      · intro x hx
        exact lt_of_le_of_lt (hle x hx) hb
    · rw [if_neg hb]
      push_neg at hb
      refine ⟨l1, l2 ++ [b], ?_, ?_, hlt⟩
      · rw [show a :: (ls ++ [b]) = (a :: ls) ++ [b] by simp, hsplit]
        simp
      · intro x hx
        rcases mem_cons_append_singleton hx with h2 | rfl
        · exact hle x h2
        · exact hb

/-- The row reduce of the selection lands on the last key of the row
attaining the row maximum. -/
theorem rowPick_isLastArgmax (v : String → String → ℚ) (r : String) (keys : List String)
    (p : String) (h : rowPick v r keys = some p) : isLastArgmax (v r) keys p := by
  cases keys with
  | nil => cases h
  | cons k ks =>
    unfold rowPick at h
    rw [Option.some_inj] at h
    rw [← h]
    exact foldl_lastwins (v r) k ks

/-- The outer max of the selection lands on the first row pick attaining
the global maximum. -/
theorem globalPick_isFirstArgmax (v : String → String → ℚ) (M : WM)
    (picks : List (String × String)) (pr : String × String)
    (hp : picksOf v M = some picks) (hg : globalPick v M = .ok pr) :
    isFirstArgmax (fun q => v q.1 q.2) picks pr := by
  unfold globalPick at hg
  rw [hp] at hg
  cases picks with
  | nil => cases hg
  | cons p ps =>
    simp only [Res.ok.injEq] at hg
    rw [← hg]
    exact foldl_firstwins (fun q => v q.1 q.2) p ps

/-- C5 amended.  The selection is deterministic but ties inside a row go
to the last seen key, not the first: the row reduce keeps its accumulator
only under strict greater, so the chosen key of each row is the last key
attaining the row maximum, while across rows the first row pick attaining
the global maximum wins. -/
theorem c5_amended (v : String → String → ℚ) :
    (∀ (r : String) (keys : List String) (p : String),
      rowPick v r keys = some p → isLastArgmax (v r) keys p) ∧
    (∀ (M : WM) (picks : List (String × String)) (pr : String × String),
      picksOf v M = some picks → globalPick v M = .ok pr →
      isFirstArgmax (fun q => v q.1 q.2) picks pr) :=
  ⟨rowPick_isLastArgmax v, globalPick_isFirstArgmax v⟩

/-- Stored categorical value of each id of cexC5, for any key. -/
theorem lastItem_cexC5 (i k : String) : (lastItem cexC5 i).fcat k = cmapC5 i := by
  by_cases ha : i = "a"
  · subst ha; simp +decide [lastItem, cexC5, cmapC5, defaultItem]
  · by_cases hb : i = "b"
    · subst hb; simp +decide [lastItem, cexC5, cmapC5, defaultItem]
    · by_cases hc : i = "c"
      · subst hc; simp +decide [lastItem, cexC5, cmapC5, defaultItem]
      · simp [lastItem, cexC5, cmapC5, defaultItem, ha, hb, hc,
          Ne.symm ha, Ne.symm hb, Ne.symm hc]

/-- The matrix cells of cexC5 in compact form. -/
theorem mval_cexC5 : mval cexC5 = vC5 := by
  funext i j
  have hn : cexC5.nprops = [] := rfl
  have hc : cexC5.cprops = [⟨"k", 1, none⟩] := rfl
  rw [mval, hn, hc]
  simp only [List.map_nil, List.map_cons, List.sum_nil, List.sum_cons,
    List.length_nil, List.length_cons, cval, lastItem_cexC5]
  simp only [catContrib, simLookup, vC5]
  by_cases h : cmapC5 i = cmapC5 j <;> simp [h] <;> norm_num

/-- C5 counterexample.  On the initial working matrix of a three item
batch whose off diagonal cells are all 1 the code selects the pair formed
from the last key of the first row, while the first seen maximum rule of
the claim selects the second key: the selected pair differs from the
first pair in scan order attaining the maximum. -/
theorem c5_counterexample :
    globalPick (mval cexC5) (initWM cexC5) = .ok ("a", "c") ∧
    maxPairFirstWins (mval cexC5) (initWM cexC5) = some ("a", "b") ∧
    (("a", "c") : String × String) ≠ ("a", "b") := by
  rw [mval_cexC5]
  refine ⟨?_, ?_, by decide⟩
  · norm_num +decide [globalPick, picksOf, optSeq, rowPick, initWM, uids, firstDedup,
      cexC5, vC5, cmapC5]
  · norm_num +decide [maxPairFirstWins, optSeq, rowPickFirstWins, initWM, uids, firstDedup,
      cexC5, vC5, cmapC5]

/-- C5 witness: the amended characterization applied at a concrete row
and a concrete working matrix. -/
theorem c5_witness :
    (rowPick vC5 "a" ["a", "b", "c"] = some "c" ∧
      isLastArgmax (vC5 "a") ["a", "b", "c"] "c") ∧
    (picksOf vC5 [("a", ["a", "b"])] = some [("a", "b")] ∧
      globalPick vC5 [("a", ["a", "b"])] = .ok ("a", "b") ∧
      isFirstArgmax (fun q => vC5 q.1 q.2) [("a", "b")] ("a", "b")) := by
  have h1 : rowPick vC5 "a" ["a", "b", "c"] = some "c" := by
    norm_num +decide [rowPick, vC5, cmapC5]
  have h2 : picksOf vC5 [("a", ["a", "b"])] = some [("a", "b")] := by
    norm_num +decide [picksOf, optSeq, rowPick, vC5, cmapC5]
  have h3 : globalPick vC5 [("a", ["a", "b"])] = .ok ("a", "b") := by
    norm_num +decide [globalPick, picksOf, optSeq, rowPick, vC5, cmapC5]
  exact ⟨⟨h1, (c5_amended vC5).1 "a" ["a", "b", "c"] "c" h1⟩,
         ⟨h2, h3, (c5_amended vC5).2 [("a", ["a", "b"])] [("a", "b")] ("a", "b") h2 h3⟩⟩

/-- Stored categorical value of each id of cexC2, for any key. -/
theorem lastItem_cexC2 (i k : String) : (lastItem cexC2 i).fcat k = cmapC2 i := by
  by_cases ha : i = "a"
  · subst ha; simp +decide [lastItem, cexC2, cmapC2, defaultItem]
  · by_cases hb : i = "b"
    · subst hb; simp +decide [lastItem, cexC2, cmapC2, defaultItem]
    · by_cases hc : i = "c"
      · subst hc; simp +decide [lastItem, cexC2, cmapC2, defaultItem]
      · by_cases hd : i = "d"
        · subst hd; simp +decide [lastItem, cexC2, cmapC2, defaultItem]
        · simp [lastItem, cexC2, cmapC2, defaultItem, ha, hb, hc, hd,
            Ne.symm ha, Ne.symm hb, Ne.symm hc, Ne.symm hd]

/-- The matrix cells of cexC2 in compact form. -/
theorem mval_cexC2 : mval cexC2 = vC2 := by
  funext i j
  have hn : cexC2.nprops = [] := rfl
  have hc : cexC2.cprops = [kcpC2] := rfl
  have hw : kcpC2.weight = 1 := rfl
  rw [mval, hn, hc]
  simp only [List.map_nil, List.map_cons, List.sum_nil, List.sum_cons,
    List.length_nil, List.length_cons, cval, lastItem_cexC2, hw, vC2]
  push_cast
  ring

set_option maxHeartbeats 2000000 in
/-- C2 counterexample.  On four items the second merge joins the two
item group 0 with singleton group 2, producing a group of three members
although the cap of the claim is ceil(4/2) = 2: the code never checks a
size cap, so a merge the claim forbids happens and the run even ends with
exactly the requested number of groups. -/
theorem c2_counterexample :
    group_algorithm_number cexC2 2 = .ok [(0, ["a", "b", "c"]), (3, ["d"])] ∧
    ∃ e ∈ [((0 : ℕ), ["a", "b", "c"]), (3, ["d"])],
      (cexC2.data.length + 2 - 1) / 2 < e.2.length := by
  have hdm : dmErr cexC2 = none := by
    norm_num +decide [dmErr, scaledGridErr, uids, firstDedup, cexC2]
  have hu : uids cexC2 = ["a", "b", "c", "d"] := by
    simp +decide [uids, firstDedup, cexC2]
  have hw0 : initWM cexC2 =
      [("a", ["a", "b", "c", "d"]), ("b", ["a", "b", "c", "d"]),
       ("c", ["a", "b", "c", "d"]), ("d", ["a", "b", "c", "d"])] := by
    rw [initWM, hu]
    rfl
  have hg0 : initGroups cexC2 = [(0, ["a"]), (1, ["b"]), (2, ["c"]), (3, ["d"])] := by
    simp +decide [initGroups, cexC2, List.range_succ]
  constructor
  · unfold group_algorithm_number difference_matrix
    rw [hdm, mval_cexC2, hu, hw0, hg0]
    norm_num +decide [gLoop, loopCond, globalPick, picksOf, optSeq, rowPick, popEntry,
      groupStep, cGroupOf, mergeGroups, vC2, cmapC2, catContrib, simLookup, alook, kcpC2]
  · refine ⟨(0, ["a", "b", "c"]), by simp, ?_⟩
    have hlen : cexC2.data.length = 4 := rfl
    rw [hlen]
    norm_num

/-- C2 amended.  The merge decision of the loop body depends only on the
two located group keys: distinct keys always merge, equal keys never do;
no size cap of any kind enters the decision. -/
theorem c2_amended (c : Groups) (mi mj : String) (h k : ℕ)
    (hh : cGroupOf c mi = some h) (hk : cGroupOf c mj = some k) :
    (h ≠ k → groupStep c mi mj = mergeGroups c h k) ∧
    (h = k → groupStep c mi mj = c) := by
  unfold groupStep
  rw [hh, hk]
  constructor
  · intro hne
    simp [hne]
  · intro he
    simp [he]

/-- C2 witness: the merge decision at a concrete two group state. -/
theorem c2_witness :
    cGroupOf [(0, ["a"]), (1, ["b"])] "a" = some 0 ∧
    cGroupOf [(0, ["a"]), (1, ["b"])] "b" = some 1 ∧
    ((0 : ℕ) ≠ 1 →
      groupStep [(0, ["a"]), (1, ["b"])] "a" "b" = mergeGroups [(0, ["a"]), (1, ["b"])] 0 1) ∧
    ((0 : ℕ) = 1 → groupStep [(0, ["a"]), (1, ["b"])] "a" "b" = [(0, ["a"]), (1, ["b"])]) := by
  have h1 : cGroupOf [(0, ["a"]), (1, ["b"])] "a" = some 0 := by decide
  have h2 : cGroupOf [(0, ["a"]), (1, ["b"])] "b" = some 1 := by decide
  obtain ⟨ha, hb⟩ := c2_amended [(0, ["a"]), (1, ["b"])] "a" "b" 0 1 h1 h2
  exact ⟨h1, h2, ha, hb⟩

/-- Stored categorical value of each id of cexC10, for any key. -/
theorem lastItem_cexC10 (i k : String) : (lastItem cexC10 i).fcat k = cmapC10 i := by
  by_cases hx : i = "x"
  · subst hx; simp +decide [lastItem, cexC10, cmapC10, defaultItem]
  · by_cases hy : i = "y"
    · subst hy; simp +decide [lastItem, cexC10, cmapC10, defaultItem]
    · by_cases hz : i = "z"
      · subst hz; simp +decide [lastItem, cexC10, cmapC10, defaultItem]
      · simp [lastItem, cexC10, cmapC10, defaultItem, hx, hy, hz,
          Ne.symm hx, Ne.symm hy, Ne.symm hz]

/-- The matrix cells of cexC10 in compact form. -/
theorem mval_cexC10 : mval cexC10 = vC10 := by
  funext i j
  have hn : cexC10.nprops = [] := rfl
  have hc : cexC10.cprops = [kcpC10] := rfl
  have hw : kcpC10.weight = 1 := rfl
  rw [mval, hn, hc]
  simp only [List.map_nil, List.map_cons, List.sum_nil, List.sum_cons,
    List.length_nil, List.length_cons, cval, lastItem_cexC10, hw, vC10]
  push_cast
  ring

set_option maxHeartbeats 1000000 in
/-- C10 counterexample.  Three records with unique ids whose matrix is
nonnegative, yet the run with one requested group raises: the dominant
diagonal cell gets selected as the maximal pair, the second pop of the
same cell fails, so the loop dies with a KeyError instead of returning
one group. -/
theorem c10_counterexample :
    (cexC10.data.map (·.id)).Nodup ∧
    (∀ i ∈ uids cexC10, ∀ j ∈ uids cexC10, 0 ≤ mval cexC10 i j) ∧
    (1 : ℕ) ≤ cexC10.data.length ∧
    group_algorithm_number cexC10 1 = .err PyErr.keyError := by
  have hdm : dmErr cexC10 = none := by
    norm_num +decide [dmErr, scaledGridErr, uids, firstDedup, cexC10]
  have hu : uids cexC10 = ["x", "y", "z"] := by
    simp +decide [uids, firstDedup, cexC10]
  have hw0 : initWM cexC10 =
      [("x", ["x", "y", "z"]), ("y", ["x", "y", "z"]), ("z", ["x", "y", "z"])] := by
    rw [initWM, hu]
    rfl
  have hg0 : initGroups cexC10 = [(0, ["x"]), (1, ["y"]), (2, ["z"])] := by
    simp +decide [initGroups, cexC10, List.range_succ]
  refine ⟨by simp +decide [cexC10], ?_, by simp [cexC10], ?_⟩
  · rw [mval_cexC10, hu]
    norm_num +decide [vC10, cmapC10, catContrib, simLookup, alook, kcpC10]
  · unfold group_algorithm_number difference_matrix
    rw [hdm, mval_cexC10, hu, hw0, hg0]
    norm_num +decide [gLoop, loopCond, globalPick, picksOf, optSeq, rowPick, popEntry,
      groupStep, cGroupOf, mergeGroups, vC10, cmapC10, catContrib, simLookup, alook, kcpC10]

/-- A fold whose step always returns one of its two arguments ends inside
the initial value and the list. -/
theorem foldl_choice_mem {α : Type} (f : α → α → α) (hf : ∀ a b, f a b = a ∨ f a b = b) :
    ∀ (l : List α) (a : α), l.foldl f a ∈ a :: l := by
  intro l
  induction l with
  | nil => intro a; simp
  | cons b t ih =>
    intro a
    rw [List.foldl_cons]
    have h2 := ih (f a b)
    rcases hf a b with h | h <;> rw [h] at h2 ⊢
    · rcases List.mem_cons.1 h2 with h3 | h3
      · rw [h3]; exact List.mem_cons_self _ _
      · exact List.mem_cons_of_mem _ (List.mem_cons_of_mem _ h3)
    · rcases List.mem_cons.1 h2 with h3 | h3
      · rw [h3]; exact List.mem_cons_of_mem _ (List.mem_cons_self _ _)
      · exact List.mem_cons_of_mem _ (List.mem_cons_of_mem _ h3)

/-- On a duplicate free list the dict key order is the list itself. -/
theorem firstDedup_eq_self : ∀ (l : List String), l.Nodup → firstDedup l = l := by
  intro l
  induction l with
  | nil => intro _; rfl
  | cons x xs ih =>
    intro h
    rw [firstDedup, ih (List.nodup_cons.1 h).2]
    congr 1
    apply List.filter_eq_self.2
    intro y hy
    have hne : y ≠ x := by
      intro he
      exact (List.nodup_cons.1 h).1 (he ▸ hy)
    simp [hne]

/-- Concatenating the singleton member lists of the initial clusters
recovers the id list. -/
theorem zip_singletons_flatMap : ∀ (ks : List ℕ) (l : List String), ks.length = l.length →
    (ks.zip (l.map fun s => [s])).flatMap Prod.snd = l := by
  intro ks
  induction ks with
  | nil =>
    intro l h
    cases l with
    | nil => rfl
    | cons s st => simp at h
  | cons k kt ih =>
    intro l h
    cases l with
    | nil => simp at h
    | cons s st =>
      simp only [List.map_cons, List.zip_cons_cons, List.flatMap_cons]
      rw [ih st (by simpa using h)]
      rfl

/-- Mapping a function that only touches the entry keyed h over a cluster
list without that key changes nothing. -/
theorem map_eq_self_of_skip (f : ℕ × List String → ℕ × List String) (h : ℕ)
    (hf : ∀ e, e.1 ≠ h → f e = e) :
    ∀ c : Groups, h ∉ c.map Prod.fst → c.map f = c := by
  intro c
  induction c with
  | nil => intro _; rfl
  | cons e t ih =>
    intro hh
    simp only [List.map_cons, List.mem_cons] at hh
    push_neg at hh
    rw [List.map_cons, hf e (Ne.symm hh.1), ih hh.2]

/-- Filtering out a key that does not occur changes nothing. -/
theorem filter_key_eq_self (k : ℕ) : ∀ c : Groups, k ∉ c.map Prod.fst →
    c.filter (fun e => e.1 ≠ k) = c := by
  intro c
  induction c with
  | nil => intro _; rfl
  | cons e t ih =>
    intro hk
    simp only [List.map_cons, List.mem_cons] at hk
    push_neg at hk
    rw [List.filter_cons_of_pos (by simp [Ne.symm hk.1]), ih hk.2]

/-- With duplicate free keys an entry is determined by its key. -/
theorem key_unique : ∀ (c : Groups), (c.map Prod.fst).Nodup →
    ∀ e1 ∈ c, ∀ e2 ∈ c, e1.1 = e2.1 → e1 = e2 := by
  intro c
  induction c with
  | nil =>
    intro _ e1 h
    cases h
  | cons e t ih =>
    intro hnd e1 h1 e2 h2 hk
    simp only [List.map_cons, List.nodup_cons] at hnd
    rcases List.mem_cons.1 h1 with rfl | h1t <;> rcases List.mem_cons.1 h2 with rfl | h2t
    · rfl
    · exact absurd (show e1.1 ∈ t.map Prod.fst by
        rw [hk]; exact List.mem_map_of_mem Prod.fst h2t) hnd.1
    · exact absurd (show e2.1 ∈ t.map Prod.fst by
        rw [← hk]; exact List.mem_map_of_mem Prod.fst h1t) hnd.1
    · exact ih hnd.2 e1 h1t e2 h2t hk

/-- With duplicate free keys, find? by key returns the entry itself. -/
theorem find?_key : ∀ (c : Groups) (k : ℕ) (mk : List String), (c.map Prod.fst).Nodup →
    (k, mk) ∈ c → c.find? (fun e => e.1 = k) = some (k, mk) := by
  intro c
  induction c with
  | nil =>
    intro k mk _ h
    cases h
  | cons e t ih =>
    intro k mk hnd hm
    simp only [List.map_cons, List.nodup_cons] at hnd
    rcases List.mem_cons.1 hm with rfl | hmt
    · exact List.find?_cons_of_pos _ (by simp)
    · by_cases he : e.1 = k
      · exact absurd (he ▸ List.mem_map_of_mem Prod.fst hmt) hnd.1
      · rw [List.find?_cons_of_neg _ (by simp [he]), ih k mk hnd.2 hmt]

/-- Removing the entry keyed k removes exactly its members, counted as a
multiset. -/
theorem members_filter_key : ∀ (c : Groups) (k : ℕ) (mk : List String),
    (c.map Prod.fst).Nodup → (k, mk) ∈ c →
    ((c.flatMap Prod.snd : List String) : Multiset String) =
      (mk : Multiset String) + ((c.filter (fun e => e.1 ≠ k)).flatMap Prod.snd : List String) := by
  intro c
  induction c with
  | nil =>
    intro k mk _ h
    cases h
  | cons e t ih =>
    intro k mk hnd hm
    simp only [List.map_cons, List.nodup_cons] at hnd
    rcases List.mem_cons.1 hm with rfl | hmt
    · rw [List.filter_cons_of_neg (by simp)]
      rw [filter_key_eq_self k t (by simpa using hnd.1)]
      simp [List.flatMap_cons]
    · have hek : e.1 ≠ k := by
        intro he
        exact hnd.1 (he ▸ List.mem_map_of_mem Prod.fst hmt)
      rw [List.filter_cons_of_pos (by simp [hek])]
      simp only [List.flatMap_cons]
      rw [show ((e.2 ++ t.flatMap Prod.snd : List String) : Multiset String) =
        (e.2 : Multiset String) + (t.flatMap Prod.snd : List String) by simp]
      rw [show (((e.2 ++ (t.filter fun e => e.1 ≠ k).flatMap Prod.snd : List String)) : Multiset String) =
        (e.2 : Multiset String) + ((t.filter fun e => e.1 ≠ k).flatMap Prod.snd : List String) by simp]
      rw [ih k mk hnd.2 hmt]
      rw [add_left_comm]

/-- Extending the members of the entry keyed h appends exactly those new
members, counted as a multiset. -/
theorem members_map_extend : ∀ (c : Groups) (h : ℕ) (mk : List String),
    (c.map Prod.fst).Nodup → h ∈ c.map Prod.fst →
    (((c.map fun e => if e.1 = h then (e.1, e.2 ++ mk) else e).flatMap Prod.snd : List String) :
        Multiset String) =
      ((c.flatMap Prod.snd : List String) : Multiset String) + (mk : Multiset String) := by
  intro c
  induction c with
  | nil =>
    intro h mk _ hh
    simp at hh
  | cons e t ih =>
    intro h mk hnd hh
    simp only [List.map_cons, List.nodup_cons] at hnd
    by_cases heh : e.1 = h
    · rw [List.map_cons, if_pos heh]
      rw [map_eq_self_of_skip _ h (fun e2 he2 => if_neg he2) t (heh ▸ hnd.1)]
      simp only [List.flatMap_cons]
      rw [show (((e.2 ++ mk) ++ t.flatMap Prod.snd : List String) : Multiset String) =
        ((e.2 : Multiset String) + (mk : Multiset String)) + (t.flatMap Prod.snd : List String)
        by simp]
      rw [show ((e.2 ++ t.flatMap Prod.snd : List String) : Multiset String) =
        (e.2 : Multiset String) + (t.flatMap Prod.snd : List String) by simp]
      rw [add_assoc, add_comm (mk : Multiset String) _, ← add_assoc]
    · have hht : h ∈ t.map Prod.fst := by
        rcases List.mem_cons.1 hh with h1 | h1
        · exact absurd h1.symm heh
        · exact h1
      rw [List.map_cons, if_neg heh]
      simp only [List.flatMap_cons]
      rw [show ((e.2 ++ (t.map fun e => if e.1 = h then (e.1, e.2 ++ mk) else e).flatMap Prod.snd :
        List String) : Multiset String) =
        (e.2 : Multiset String) +
          ((t.map fun e => if e.1 = h then (e.1, e.2 ++ mk) else e).flatMap Prod.snd : List String)
        by simp]
      rw [show ((e.2 ++ t.flatMap Prod.snd : List String) : Multiset String) =
        (e.2 : Multiset String) + (t.flatMap Prod.snd : List String) by simp]
      rw [ih h mk hnd.2 hht, add_assoc]

/-- The member extension map keeps every key. -/
theorem keys_map_extend (h : ℕ) (mk : List String) (c : Groups) :
    (c.map fun e => if e.1 = h then (e.1, e.2 ++ mk) else e).map Prod.fst = c.map Prod.fst := by
  rw [List.map_map]
  apply List.map_congr_left
  intro e _
  by_cases heh : e.1 = h <;> simp [heh]

/-- Keys after extending group h and dropping group k: the old keys
without k. -/
theorem keys_mapfilter (h k : ℕ) (mk : List String) : ∀ c : Groups,
    (((c.map fun e => if e.1 = h then (e.1, e.2 ++ mk) else e).filter fun e => e.1 ≠ k).map
      Prod.fst) = (c.map Prod.fst).filter (fun x => x ≠ k) := by
  intro c
  induction c with
  | nil => rfl
  | cons e t ih =>
    have hfe : (if e.1 = h then (e.1, e.2 ++ mk) else e).1 = e.1 := by
      by_cases heh : e.1 = h <;> simp [heh]
    simp only [List.map_cons]
    by_cases hek : e.1 = k
    · rw [List.filter_cons_of_neg (by rw [hfe]; simp [hek]), List.filter_cons_of_neg (by simp [hek])]
      exact ih
    · rw [List.filter_cons_of_pos (by rw [hfe]; simp [hek]), List.filter_cons_of_pos (by simp [hek])]
      simp only [List.map_cons, hfe]
      rw [ih]

/-- Keys of the merged cluster list: the old keys without k. -/
theorem mergeGroups_keys (c : Groups) (h k : ℕ) :
    (mergeGroups c h k).map Prod.fst = (c.map Prod.fst).filter (fun x => x ≠ k) := by
  unfold mergeGroups
  exact keys_mapfilter h k _ c

/-- Merging two distinct existing groups preserves the member multiset. -/
theorem mergeGroups_members (c : Groups) (h k : ℕ) (hnd : (c.map Prod.fst).Nodup)
    (hh : h ∈ c.map Prod.fst) (hkk : k ∈ c.map Prod.fst) (hne : h ≠ k) :
    (((mergeGroups c h k).flatMap Prod.snd : List String) : Multiset String) =
      ((c.flatMap Prod.snd : List String) : Multiset String) := by
  obtain ⟨ek, hekm, hek1⟩ := List.mem_map.1 hkk
  have hekc : (k, ek.2) ∈ c := by
    have : ek = (k, ek.2) := by
      rw [← hek1]
    rw [← this]
    exact hekm
  have hfind : c.find? (fun e => e.1 = k) = some (k, ek.2) := find?_key c k ek.2 hnd hekc
  unfold mergeGroups
  rw [hfind]
  simp only [Option.map_some', Option.getD_some]
  have hmapkeys : ((c.map fun e => if e.1 = h then (e.1, e.2 ++ ek.2) else e).map Prod.fst).Nodup := by
    rw [keys_map_extend]
    exact hnd
  have hkmem : (k, ek.2) ∈ c.map fun e => if e.1 = h then (e.1, e.2 ++ ek.2) else e := by
    have heq : (fun e => if e.1 = h then (e.1, e.2 ++ ek.2) else e) ((k : ℕ), ek.2) = (k, ek.2) := by
      show (if (k : ℕ) = h then ((k : ℕ), ek.2 ++ ek.2) else ((k : ℕ), ek.2)) = (k, ek.2)
      rw [if_neg]
      exact fun hkh => hne hkh.symm
    rw [← heq]
    exact List.mem_map_of_mem _ hekc
  have h2 := members_filter_key _ k ek.2 hmapkeys hkmem
  have h1 := members_map_extend c h ek.2 hnd hh
  rw [h1] at h2
  have := h2.symm
  rw [add_comm ((c.flatMap Prod.snd : List String) : Multiset String) (ek.2 : Multiset String)] at this
  exact add_left_cancel this

/-- Merged list length: one entry fewer when k occurs once. -/
theorem filter_ne_length (k : ℕ) : ∀ (l : List ℕ), l.Nodup → k ∈ l →
    (l.filter (fun x => x ≠ k)).length + 1 = l.length := by
  intro l
  induction l with
  | nil =>
    intro _ h
    cases h
  | cons a t ih =>
    intro hnd hk
    rcases List.mem_cons.1 hk with rfl | hkt
    · rw [List.filter_cons_of_neg (by simp)]
      rw [List.filter_eq_self.2 (fun x hx => by
        simp only [ne_eq, decide_eq_true_eq]
        intro he
        exact (List.nodup_cons.1 hnd).1 (he ▸ hx))]
      simp
    · have hak : a ≠ k := by
        intro he
        exact (List.nodup_cons.1 hnd).1 (he ▸ hkt)
      rw [List.filter_cons_of_pos (by simp [hak])]
      simp only [List.length_cons]
      rw [← ih (List.nodup_cons.1 hnd).2 hkt]

/-- Membership description of the merged cluster list. -/
theorem mem_mergeGroups (c : Groups) (h k : ℕ) (mh mk : List String)
    (hnd : (c.map Prod.fst).Nodup) (hhc : (h, mh) ∈ c) (hkc : (k, mk) ∈ c) (hne : h ≠ k) :
    ∀ e2, e2 ∈ mergeGroups c h k ↔
      (e2 = (h, mh ++ mk) ∨ (e2 ∈ c ∧ e2.1 ≠ h ∧ e2.1 ≠ k)) := by
  intro e2
  have hfind : c.find? (fun e => e.1 = k) = some (k, mk) := find?_key c k mk hnd hkc
  unfold mergeGroups
  rw [hfind]
  simp only [Option.map_some', Option.getD_some, List.mem_filter, List.mem_map]
  constructor
  · rintro ⟨⟨e, hec, hfe⟩, hk2⟩
    by_cases heh : e.1 = h
    · left
      have : e = (h, mh) := key_unique c hnd e hec (h, mh) hhc heh
      rw [this] at hfe
      simp at hfe
      rw [← hfe]
    · right
      rw [if_neg heh] at hfe
      subst hfe
      exact ⟨hec, heh, by simpa using hk2⟩
  · rintro (rfl | ⟨hec, hh2, hk2⟩)
    · refine ⟨⟨(h, mh), hhc, by simp⟩, by simpa using hne⟩
    · exact ⟨⟨e2, hec, by rw [if_neg hh2]⟩, by simpa using hk2⟩

/-- A fold that ignores entries not containing x returns its start. -/
theorem foldl_skip_groups (x : String) : ∀ (t : Groups) (a : ℕ), (∀ e ∈ t, x ∉ e.2) →
    t.foldl (fun acc kc => if x ∈ kc.2 then kc.1 else acc) a = a := by
  intro t
  induction t with
  | nil => intro a _; rfl
  | cons e r ih =>
    intro a hs
    rw [List.foldl_cons, if_neg (hs e (List.mem_cons_self _ _))]
    exact ih a fun e2 he2 => hs e2 (List.mem_cons_of_mem _ he2)

/-- The group locating reduce returns the key of the last entry holding
the item. -/
theorem cGroupOf_eq (c : Groups) (x : String) (l1 : Groups) (e : ℕ × List String) (l2 : Groups)
    (hsplit : c = l1 ++ e :: l2) (hx : x ∈ e.2) (hl2 : ∀ e2 ∈ l2, x ∉ e2.2) :
    cGroupOf c x = some e.1 := by
  subst hsplit
  obtain ⟨k0, m0⟩ := e
  have hfold : ∀ (a : ℕ),
      (l1 ++ (k0, m0) :: l2).foldl (fun acc kc => if x ∈ kc.2 then kc.1 else acc) a = k0 := by
    intro a
    rw [List.foldl_append, List.foldl_cons, if_pos hx, foldl_skip_groups x l2 _ hl2]
  cases l1 with
  | nil =>
    simp only [List.nil_append] at hfold ⊢
    show some (((k0, m0) :: l2).foldl (fun acc kc => if x ∈ kc.2 then kc.1 else acc) k0) = some k0
    rw [hfold k0]
  | cons hd tl =>
    obtain ⟨kh, mh⟩ := hd
    rw [List.cons_append]
    show some (((kh, mh) :: (tl ++ (k0, m0) :: l2)).foldl
      (fun acc kc => if x ∈ kc.2 then kc.1 else acc) kh) = some k0
    rw [← List.cons_append, hfold kh]

/-- Each id of a duplicate free total membership lies in a unique entry
of the cluster list. -/
theorem exists_unique_entry (c : Groups) (x : String)
    (hnd : (c.flatMap Prod.snd).Nodup) (hx : x ∈ c.flatMap Prod.snd) :
    ∃ l1 e l2, c = l1 ++ e :: l2 ∧ x ∈ e.2 ∧
      (∀ e2 ∈ l1, x ∉ e2.2) ∧ (∀ e2 ∈ l2, x ∉ e2.2) := by
  induction c with
  | nil => cases hx
  | cons e t ih =>
    rw [List.flatMap_cons] at hnd hx
    rcases List.mem_append.1 hx with hxe | hxt
    · refine ⟨[], e, t, rfl, hxe, by simp, ?_⟩
      intro e2 he2 hxe2
      have hxt2 : x ∈ t.flatMap Prod.snd := List.mem_flatMap.2 ⟨e2, he2, hxe2⟩
      exact (List.disjoint_of_nodup_append hnd) hxe hxt2
    · have hnd2 : (t.flatMap Prod.snd).Nodup := (List.nodup_append.1 hnd).2.1
      obtain ⟨l1, e1, l2, hsp, hxe, hL, hR⟩ := ih hnd2 hxt
      refine ⟨e :: l1, e1, l2, by rw [hsp]; simp, hxe, ?_, hR⟩
      intro e2 he2
      rcases List.mem_cons.1 he2 with rfl | h2
      · intro hx2
        exact (List.disjoint_of_nodup_append hnd) hx2 hxt
      · exact hL e2 h2

/-- The group locating fold stays among the start key and the entry
keys. -/
theorem foldl_key_mem (x : String) : ∀ (l : Groups) (a : ℕ),
    l.foldl (fun acc kc => if x ∈ kc.2 then kc.1 else acc) a ∈ a :: l.map Prod.fst := by
  intro l
  induction l with
  | nil => intro a; simp
  | cons e t ih =>
    intro a
    rw [List.foldl_cons]
    have h2 := ih (if x ∈ e.2 then e.1 else a)
    by_cases hx : x ∈ e.2
    · rw [if_pos hx] at h2 ⊢
      simp only [List.map_cons, List.mem_cons] at h2 ⊢
      tauto
    · rw [if_neg hx] at h2 ⊢
      simp only [List.map_cons, List.mem_cons] at h2 ⊢
      tauto

/-- Whatever cGroupOf returns is one of the group keys. -/
theorem cGroupOf_mem (c : Groups) (x : String) (k : ℕ) (h : cGroupOf c x = some k) :
    k ∈ c.map Prod.fst := by
  cases c with
  | nil => cases h
  | cons e t =>
    obtain ⟨k0, m0⟩ := e
    simp only [cGroupOf, Option.some_inj] at h
    have h2 := foldl_key_mem x ((k0, m0) :: t) k0
    rw [h] at h2
    simp only [List.map_cons, List.mem_cons] at h2 ⊢
    tauto

/-- Four way description of one merge decision. -/
theorem groupStep_eq (c : Groups) (mi mj : String) (h k : ℕ)
    (hh : cGroupOf c mi = some h) (hk : cGroupOf c mj = some k) :
    groupStep c mi mj = if h = k then c else mergeGroups c h k := by
  unfold groupStep
  rw [hh, hk]

/-- A failed group lookup leaves the cluster map unchanged. -/
theorem groupStep_eq_none (c : Groups) (mi mj : String)
    (h : cGroupOf c mi = none ∨ cGroupOf c mj = none) : groupStep c mi mj = c := by
  unfold groupStep
  rcases h with h | h
  · rw [h]
  · cases hmi : cGroupOf c mi
    · rfl
    · rw [h]

/-- One merge decision keeps the keys duplicate free and the member
multiset unchanged. -/
theorem groupStep_preserves (c : Groups) (mi mj : String) (hnd : (c.map Prod.fst).Nodup) :
    ((groupStep c mi mj).map Prod.fst).Nodup ∧
    (((groupStep c mi mj).flatMap Prod.snd : List String) : Multiset String) =
      ((c.flatMap Prod.snd : List String) : Multiset String) := by
  cases hgi : cGroupOf c mi with
  | none =>
    rw [groupStep_eq_none c mi mj (Or.inl hgi)]
    exact ⟨hnd, rfl⟩
  | some h =>
    cases hgj : cGroupOf c mj with
    | none =>
      rw [groupStep_eq_none c mi mj (Or.inr hgj)]
      exact ⟨hnd, rfl⟩
    | some k =>
      rw [groupStep_eq c mi mj h k hgi hgj]
      by_cases hhk : h = k
      · rw [if_pos hhk]
        exact ⟨hnd, rfl⟩
      · rw [if_neg hhk]
        refine ⟨?_, mergeGroups_members c h k hnd (cGroupOf_mem c mi h hgi)
          (cGroupOf_mem c mj k hgj) hhk⟩
        rw [mergeGroups_keys]
        exact hnd.filter _

/-- Any normal return of the grouping loop keeps the member multiset of
the cluster map. -/
theorem gLoop_members (v : String → String → ℚ) (g : ℕ) :
    ∀ (fuel : ℕ) (M : WM) (c c2 : Groups), (c.map Prod.fst).Nodup →
    gLoop v g fuel M c = .ok c2 →
    ((c2.flatMap Prod.snd : List String) : Multiset String) =
      ((c.flatMap Prod.snd : List String) : Multiset String) := by
  intro fuel
  induction fuel with
  | zero =>
    intro M c c2 hnd h
    unfold gLoop at h
    by_cases hcond : loopCond g M c = true
    · rw [if_pos hcond] at h
      cases h
    · rw [if_neg hcond] at h
      cases h
      rfl
  | succ fuel ih =>
    intro M c c2 hnd h
    unfold gLoop at h
    by_cases hcond : loopCond g M c = true
    · rw [if_pos hcond] at h
      split at h
      · cases h
      · next mi mj hgp =>
        split at h
        · cases h
        · next M1 hp1 =>
          split at h
          · cases h
          · next M2 hp2 =>
            have hstep := groupStep_preserves c mi mj hnd
            have h3 := ih M2 (groupStep c mi mj) c2 hstep.1 h
            rw [h3, hstep.2]
    · rw [if_neg hcond] at h
      cases h
      rfl

/-- Keys of the initial cluster map: the item positions. -/
theorem initGroups_keys (g : HeterogeneousGrouper) :
    (initGroups g).map Prod.fst = List.range g.data.length := by
  unfold initGroups
  apply List.map_fst_zip
  simp

/-- Members of the initial cluster map: the item ids in order. -/
theorem initGroups_members (g : HeterogeneousGrouper) :
    (initGroups g).flatMap Prod.snd = g.data.map (·.id) := by
  unfold initGroups
  rw [show (g.data.map fun it => [it.id]) = ((g.data.map (·.id)).map fun s => [s]) from by
    rw [List.map_map]; rfl]
  exact zip_singletons_flatMap _ _ (by simp)

/-- Any normal return of the number strategy has exactly the input item
ids as its member multiset. -/
theorem gan_members (gr : HeterogeneousGrouper) (k : ℕ) (c2 : Groups)
    (h : group_algorithm_number gr k = .ok c2) :
    ((c2.flatMap Prod.snd : List String) : Multiset String) =
      ((gr.data.map (·.id) : List String) : Multiset String) := by
  unfold group_algorithm_number at h
  cases hdm : difference_matrix gr with
  | err e => rw [hdm] at h; cases h
  | ok m =>
    rw [hdm] at h
    have hnd : ((initGroups gr).map Prod.fst).Nodup := by
      rw [initGroups_keys]
      exact List.nodup_range _
    have h2 := gLoop_members (mval gr) k _ _ _ _ hnd h
    rw [h2, initGroups_members]

/-- Every combination is an ordered sublist of the source list. -/
theorem combinations_sublist : ∀ (l : List String) (k : ℕ) (cmb : List String),
    cmb ∈ combinations k l → cmb.Sublist l := by
  intro l
  induction l with
  | nil =>
    intro k cmb h
    cases k with
    | zero =>
      simp only [combinations, List.mem_singleton] at h
      rw [h]
    | succ k => simp [combinations] at h
  | cons x xs ih =>
    intro k cmb h
    cases k with
    | zero =>
      simp only [combinations, List.mem_singleton] at h
      rw [h]
      exact List.nil_sublist _
    | succ k =>
      rw [combinations] at h
      rcases List.mem_append.1 h with h1 | h1
      · obtain ⟨c2, hc2, rfl⟩ := List.mem_map.1 h1
        exact List.Sublist.cons₂ x (ih k c2 hc2)
      · exact List.Sublist.cons x (ih (k + 1) cmb h1)

/-- Every combination has the requested size. -/
theorem combinations_length : ∀ (l : List String) (k : ℕ) (cmb : List String),
    cmb ∈ combinations k l → cmb.length = k := by
  intro l
  induction l with
  | nil =>
    intro k cmb h
    cases k with
    | zero =>
      simp only [combinations, List.mem_singleton] at h
      rw [h]
      rfl
    | succ k => simp [combinations] at h
  | cons x xs ih =>
    intro k cmb h
    cases k with
    | zero =>
      simp only [combinations, List.mem_singleton] at h
      rw [h]
      rfl
    | succ k =>
      rw [combinations] at h
      rcases List.mem_append.1 h with h1 | h1
      · obtain ⟨c2, hc2, rfl⟩ := List.mem_map.1 h1
        rw [List.length_cons, ih k c2 hc2]
      · exact ih (k + 1) cmb h1

/-- A feasible size always has a combination. -/
theorem combinations_ne_nil : ∀ (l : List String) (k : ℕ), k ≤ l.length →
    combinations k l ≠ [] := by
  intro l
  induction l with
  | nil =>
    intro k hk
    cases k with
    | zero => simp [combinations]
    | succ k => exact absurd hk (by simp)
  | cons x xs ih =>
    intro k hk
    cases k with
    | zero => simp [combinations]
    | succ k =>
      rw [combinations]
      intro happ
      rcases List.append_eq_nil.1 happ with ⟨h1, _⟩
      exact ih k (by simpa using hk) (List.map_eq_nil.1 h1)

/-- The seed search returns some combination of the requested size. -/
theorem bestSeeds_mem (v : String → String → ℚ) (k : ℕ) (ids : List String)
    (hk : k ≤ ids.length) :
    ∃ seeds, bestSeeds v k ids = some seeds ∧ seeds ∈ combinations k ids := by
  unfold bestSeeds
  cases hc : combinations k ids with
  | nil => exact absurd hc (combinations_ne_nil ids k hk)
  | cons c cs =>
    refine ⟨_, rfl, ?_⟩
    exact foldl_choice_mem _
      (fun a b => by by_cases hab : pairScore v b < pairScore v a <;> simp [hab]) cs c

/-- A successful pair pick names an ungrouped item and an unassigned
group. -/
theorem pickPair_some_mem (v : String → String → ℚ) (grps : Groups) (ung : List String)
    (unas : List ℕ) (it : String) (k : ℕ)
    (h : pickPair v grps ung unas = some (it, k)) : it ∈ ung ∧ k ∈ unas := by
  unfold pickPair at h
  cases hps : ung.flatMap (fun it => unas.map fun k => (it, k)) with
  | nil => rw [hps] at h; cases h
  | cons p ps =>
    rw [hps] at h
    have hmem : ps.foldl (fun best cand =>
        if scoreTo v cand.1 (groupMembers grps cand.2) >
          scoreTo v best.1 (groupMembers grps best.2) then cand else best) p ∈ p :: ps :=
      foldl_choice_mem _ (fun a b => by
        by_cases hab : scoreTo v b.1 (groupMembers grps b.2) >
          scoreTo v a.1 (groupMembers grps a.2) <;> simp [hab]) ps p
    rw [← hps] at hmem
    rw [Option.some_inj] at h
    rw [h] at hmem
    obtain ⟨it2, hit2, hpm⟩ := List.mem_flatMap.1 hmem
    obtain ⟨k2, hk2, heq⟩ := List.mem_map.1 hpm
    have h1 : it2 = it ∧ k2 = k := by
      rw [Prod.mk.injEq] at heq
      exact ⟨heq.1, heq.2⟩
    rw [← h1.1, ← h1.2]
    exact ⟨hit2, hk2⟩

/-- With ungrouped items and unassigned groups a pick always exists. -/
theorem pickPair_isSome (v : String → String → ℚ) (grps : Groups) (ung : List String)
    (unas : List ℕ) (hu : ung ≠ []) (ha : unas ≠ []) :
    ∃ pr, pickPair v grps ung unas = some pr := by
  unfold pickPair
  cases hps : ung.flatMap (fun it => unas.map fun k => (it, k)) with
  | nil =>
    exfalso
    obtain ⟨u0, ut, rfl⟩ := List.exists_cons_of_ne_nil hu
    obtain ⟨a0, at2, rfl⟩ := List.exists_cons_of_ne_nil ha
    simp [List.flatMap_cons] at hps
  | cons p ps => exact ⟨_, rfl⟩

/-- Assigning an item does not change the group keys. -/
theorem assignTo_keys (grps : Groups) (k : ℕ) (it : String) :
    (assignTo grps k it).map Prod.fst = grps.map Prod.fst := by
  unfold assignTo
  rw [List.map_map]
  apply List.map_congr_left
  intro e _
  by_cases he : e.1 = k <;> simp [he]

/-- Assigning an item to an existing group adds exactly that item to the
member multiset. -/
theorem assignTo_members (grps : Groups) (k : ℕ) (it : String)
    (hnd : (grps.map Prod.fst).Nodup) (hk : k ∈ grps.map Prod.fst) :
    (((assignTo grps k it).flatMap Prod.snd : List String) : Multiset String) =
      ((grps.flatMap Prod.snd : List String) : Multiset String) + {it} := by
  unfold assignTo
  have h2 := members_map_extend grps k [it] hnd hk
  rw [h2]
  rfl

/-- The inner assignment loop keeps the keys, moves items from the
ungrouped pool into groups one by one, and never grows the pool. -/
theorem innerRound_spec (v : String → String → ℚ) :
    ∀ (fuel : ℕ) (grps : Groups) (ung : List String) (unas : List ℕ),
    (grps.map Prod.fst).Nodup → (∀ k ∈ unas, k ∈ grps.map Prod.fst) →
    (innerRound v fuel grps ung unas).1.map Prod.fst = grps.map Prod.fst ∧
    ((((innerRound v fuel grps ung unas).1.flatMap Prod.snd : List String) : Multiset String) +
        ((innerRound v fuel grps ung unas).2 : Multiset String) =
      ((grps.flatMap Prod.snd : List String) : Multiset String) + (ung : Multiset String)) ∧
    (innerRound v fuel grps ung unas).2.length ≤ ung.length := by
  intro fuel
  induction fuel with
  | zero =>
    intro grps ung unas hnd hsub
    exact ⟨rfl, rfl, le_refl _⟩
  | succ fuel ih =>
    intro grps ung unas hnd hsub
    unfold innerRound
    cases hpp : pickPair v grps ung unas with
    | none => exact ⟨rfl, rfl, le_refl _⟩
    | some pr =>
      obtain ⟨it, k⟩ := pr
      obtain ⟨hit, hk⟩ := pickPair_some_mem v grps ung unas it k hpp
      have hkk : k ∈ grps.map Prod.fst := hsub k hk
      have hihyp := ih (assignTo grps k it) (ung.erase it) (unas.erase k)
        (by rw [assignTo_keys]; exact hnd)
        (by
          intro k2 hk2
          rw [assignTo_keys]
          exact hsub k2 (List.erase_subset k unas hk2))
      refine ⟨?_, ?_, ?_⟩
      · rw [hihyp.1, assignTo_keys]
      · rw [hihyp.2.1, assignTo_members grps k it hnd hkk]
        rw [add_assoc]
        congr 1
        have hperm : ung.Perm (it :: ung.erase it) := List.perm_cons_erase hit
        rw [show (ung : Multiset String) = ((it :: ung.erase it : List String) : Multiset String)
          from Multiset.coe_eq_coe.2 hperm]
        rw [Multiset.singleton_add, ← Multiset.cons_coe]
      · have h1 : (ung.erase it).length ≤ ung.length := by
          have := List.length_erase_of_mem hit
          omega
        exact le_trans hihyp.2.2 h1

/-- With an ungrouped item and an unassigned group the inner loop makes
strict progress. -/
theorem innerRound_progress (v : String → String → ℚ) (fuel : ℕ) (grps : Groups)
    (ung : List String) (unas : List ℕ) (hnd : (grps.map Prod.fst).Nodup)
    (hsub : ∀ k ∈ unas, k ∈ grps.map Prod.fst) (hu : ung ≠ []) (ha : unas ≠ []) :
    (innerRound v (fuel + 1) grps ung unas).2.length < ung.length := by
  unfold innerRound
  obtain ⟨pr, hpp⟩ := pickPair_isSome v grps ung unas hu ha
  obtain ⟨it, k⟩ := pr
  rw [hpp]
  obtain ⟨hit, hk⟩ := pickPair_some_mem v grps ung unas it k hpp
  show (innerRound v fuel (assignTo grps k it) (ung.erase it) (unas.erase k)).2.length < ung.length
  have hspec := innerRound_spec v fuel (assignTo grps k it) (ung.erase it) (unas.erase k)
    (by rw [assignTo_keys]; exact hnd)
    (by
      intro k2 hk2
      rw [assignTo_keys]
      exact hsub k2 (List.erase_subset k unas hk2))
  have h1 : (ung.erase it).length + 1 = ung.length := by
    have := List.length_erase_of_mem hit
    have h0 : 0 < ung.length := List.length_pos.2 hu
    omega
  have h2 := hspec.2.2
  omega

/-- The round loop finishes once the fuel exceeds the pool size and then
every pooled item has been assigned to some group. -/
theorem roundsLoop_spec (v : String → String → ℚ) :
    ∀ (fuel : ℕ) (grps : Groups) (ung : List String),
    ung.length < fuel → (grps.map Prod.fst).Nodup → grps.map Prod.fst ≠ [] →
    ∃ grps2, roundsLoop v fuel grps ung = some grps2 ∧
      ((grps2.flatMap Prod.snd : List String) : Multiset String) =
        ((grps.flatMap Prod.snd : List String) : Multiset String) + (ung : Multiset String) := by
  intro fuel
  induction fuel with
  | zero =>
    intro grps ung h
    omega
  | succ fuel ih =>
    intro grps ung hlen hnd hne
    unfold roundsLoop
    by_cases hu : ung.isEmpty = true
    · rw [if_pos hu]
      refine ⟨grps, rfl, ?_⟩
      rw [List.isEmpty_iff.1 hu]
      simp
    · rw [if_neg hu]
      have hul : ung ≠ [] := by
        intro he
        rw [he] at hu
        exact hu rfl
      have hspec := innerRound_spec v ung.length grps ung (grps.map Prod.fst) hnd (fun k hk => hk)
      have hprog : (innerRound v ung.length grps ung (grps.map Prod.fst)).2.length < ung.length := by
        obtain ⟨u0, ut, rfl⟩ := List.exists_cons_of_ne_nil hul
        exact innerRound_progress v ut.length grps (u0 :: ut) _ hnd (fun k hk => hk)
          (by simp) hne
      obtain ⟨g2, hg2, hmem⟩ := ih (innerRound v ung.length grps ung (grps.map Prod.fst)).1
        (innerRound v ung.length grps ung (grps.map Prod.fst)).2
        (by omega)
        (by rw [hspec.1]; exact hnd)
        (by rw [hspec.1]; exact hne)
      refine ⟨g2, hg2, ?_⟩
      rw [hmem, hspec.2.1]

/-- Filtering a duplicate free list by membership in one of its sublists
recovers that sublist. -/
theorem filter_mem_sublist : ∀ (seeds ids : List String), seeds.Sublist ids → ids.Nodup →
    ids.filter (fun i => decide (i ∈ seeds)) = seeds := by
  intro seeds ids hsub
  induction hsub with
  | slnil => intro _; rfl
  | cons x hs ih =>
    intro hnd
    rename_i s2 l2
    have hxl : x ∉ l2 := (List.nodup_cons.1 hnd).1
    have hxs : x ∉ s2 := fun hx => hxl (hs.subset hx)
    rw [List.filter_cons_of_neg (by simpa using hxs)]
    exact ih (List.nodup_cons.1 hnd).2
  | cons₂ x hs ih =>
    intro hnd
    rename_i s2 l2
    have hxl : x ∉ l2 := (List.nodup_cons.1 hnd).1
    rw [List.filter_cons_of_pos (by simp)]
    congr 1
    rw [show l2.filter (fun i => decide (i ∈ x :: s2)) = l2.filter (fun i => decide (i ∈ s2))
      from List.filter_congr fun y hy => by
        have hyx : y ≠ x := fun he => hxl (he ▸ hy)
        simp [hyx]]
    exact ih (List.nodup_cons.1 hnd).2

/-- C7.  With unique identifiers and a feasible group count, any normal
return of the number strategy and the return of the spec modelled same
size strategy both carry every input id exactly once across their
groups. -/
theorem c7_both_strategies_partition (gr : HeterogeneousGrouper) (k : ℕ)
    (hnd : (gr.data.map (·.id)).Nodup) (hk1 : 1 ≤ k) (hkn : k ≤ gr.data.length)
    (hok : dmErr gr = none) :
    (∀ c2, group_algorithm_number gr k = .ok c2 →
      ((c2.flatMap Prod.snd : List String) : Multiset String) =
        ((gr.data.map (·.id) : List String) : Multiset String)) ∧
    (∃ c2, group_algorithm_same_size_best_approximation gr k = .ok c2 ∧
      ((c2.flatMap Prod.snd : List String) : Multiset String) =
        ((gr.data.map (·.id) : List String) : Multiset String)) := by
  constructor
  · intro c2 h
    exact gan_members gr k c2 h
  · have hids : uids gr = gr.data.map (·.id) := firstDedup_eq_self _ hnd
    have hlen : (uids gr).length = gr.data.length := by rw [hids]; simp
    obtain ⟨seeds, hseeds, hcomb⟩ :=
      bestSeeds_mem (mval gr) k (uids gr) (by rw [hlen]; exact hkn)
    have hsub := combinations_sublist (uids gr) k seeds hcomb
    have hslen := combinations_length (uids gr) k seeds hcomb
    have hidnd : (uids gr).Nodup := by rw [hids]; exact hnd
    have hkeys0 : ((List.range seeds.length).zip (seeds.map fun s => [s])).map Prod.fst
        = List.range seeds.length := by
      apply List.map_fst_zip
      simp
    have hmem0 : ((List.range seeds.length).zip (seeds.map fun s => [s])).flatMap Prod.snd
        = seeds := zip_singletons_flatMap _ _ (by simp)
    have hne0 : ((List.range seeds.length).zip (seeds.map fun s => [s])).map Prod.fst ≠ [] := by
      rw [hkeys0, hslen]
      intro he
      have hz : k = 0 := by simpa using congrArg List.length he
      omega
    have hfuel : ((uids gr).filter fun i => i ∉ seeds).length < (uids gr).length + 1 := by
      have := List.length_filter_le (fun i => decide (i ∉ seeds)) (uids gr)
      omega
    obtain ⟨grps2, hg2, hmem2⟩ := roundsLoop_spec (mval gr) ((uids gr).length + 1)
      ((List.range seeds.length).zip (seeds.map fun s => [s]))
      ((uids gr).filter fun i => i ∉ seeds) hfuel
      (by rw [hkeys0]; exact List.nodup_range _) hne0
    have hssa : sameSizeApprox (mval gr) (uids gr) k = some grps2 := by
      unfold sameSizeApprox
      rw [hseeds]
      show roundsLoop (mval gr) ((uids gr).length + 1)
        ((List.range seeds.length).zip (seeds.map fun s => [s]))
        ((uids gr).filter fun i => i ∉ seeds) = some grps2
      exact hg2
    have hdm : difference_matrix gr =
        .ok ((uids gr).map fun i => (i, (uids gr).map fun j => (j, mval gr i j))) := by
      unfold difference_matrix
      rw [hok]
    have hrun : group_algorithm_same_size_best_approximation gr k = .ok grps2 := by
      unfold group_algorithm_same_size_best_approximation
      rw [hdm]
      show (match sameSizeApprox (mval gr) (uids gr) k with
        | some r => Res.ok r
        | none => Res.err PyErr.fuelOut) = Res.ok grps2
      rw [hssa]
    refine ⟨grps2, hrun, ?_⟩
    rw [hmem2, hmem0]
    have h1 : (uids gr).filter (fun i => decide (i ∈ seeds)) = seeds :=
      filter_mem_sublist seeds (uids gr) hsub hidnd
    have h2 : (uids gr).filter (fun x => !decide (x ∈ seeds)) =
        (uids gr).filter (fun i => decide (i ∉ seeds)) :=
      List.filter_congr fun x _ => by simp [decide_not]
    have hperm := List.filter_append_perm (fun i => decide (i ∈ seeds)) (uids gr)
    rw [h1, h2] at hperm
    have h3 := Multiset.coe_eq_coe.2 hperm
    rw [← hids, ← h3]
    simp

/-- C7 witness: on the two item grouper with one plain categorical
property and one requested group, both hypotheses hold and both
strategies distribute exactly the two input ids. -/
theorem c7_witness :
    (wex7.data.map (fun x => x.id)).Nodup ∧ 1 ≤ wex7.data.length ∧ dmErr wex7 = none ∧
    ((∀ c2, group_algorithm_number wex7 1 = .ok c2 →
        ((c2.flatMap Prod.snd : List String) : Multiset String) =
          ((wex7.data.map (fun x => x.id) : List String) : Multiset String)) ∧
      (∃ c2, group_algorithm_same_size_best_approximation wex7 1 = .ok c2 ∧
        ((c2.flatMap Prod.snd : List String) : Multiset String) =
          ((wex7.data.map (fun x => x.id) : List String) : Multiset String))) := by
  have hnd : (wex7.data.map (fun x => x.id)).Nodup := by simp +decide [wex7]
  have hkn : 1 ≤ wex7.data.length := by simp [wex7]
  have hok : dmErr wex7 = none := rfl
  exact ⟨hnd, hkn, hok,
    c7_both_strategies_partition wex7 1 hnd le_rfl hkn hok⟩

/-- Lookup of a key present in a duplicate free association list returns
its stored value. -/
theorem alook_of_mem_nodup {α : Type} : ∀ (M : List (String × α)) (i : String) (r : α),
    (M.map Prod.fst).Nodup → (i, r) ∈ M → alook M i = some r := by
  intro M
  induction M with
  | nil =>
    intro i r _ h
    cases h
  | cons e t ih =>
    intro i r hnd h
    obtain ⟨k, w⟩ := e
    simp only [List.map_cons, List.nodup_cons] at hnd
    rcases List.mem_cons.1 h with he | ht
    · rw [Prod.mk.injEq] at he
      unfold alook
      rw [if_pos he.1.symm, he.2]
    · have hki : k ≠ i := by
        intro he2
        exact hnd.1 (List.mem_map.2 ⟨(i, r), ht, he2.symm⟩)
      unfold alook
      rw [if_neg hki]
      exact ih i r hnd.2 ht

/-- A successful lookup comes from a member entry. -/
theorem mem_of_alook {α : Type} : ∀ (M : List (String × α)) (i : String) (r : α),
    alook M i = some r → (i, r) ∈ M := by
  intro M
  induction M with
  | nil =>
    intro i r h
    cases h
  | cons e t ih =>
    intro i r h
    obtain ⟨k, w⟩ := e
    unfold alook at h
    by_cases hk : k = i
    · rw [if_pos hk] at h
      rw [Option.some_inj] at h
      rw [← hk, ← h]
      exact List.mem_cons_self _ _
    · rw [if_neg hk] at h
      exact List.mem_cons_of_mem _ (ih i r h)

/-- Lookup through the one row rewrite done by an entry pop. -/
theorem alook_popmap (i j : String) : ∀ (M : WM) (x : String),
    alook (M.map fun rc => if rc.1 = i then (rc.1, rc.2.erase j) else rc) x =
      if x = i then (alook M x).map (fun l => l.erase j) else alook M x := by
  intro M
  induction M with
  | nil =>
    intro x
    show (none : Option (List String)) = if x = i then Option.map _ none else none
    split <;> rfl
  | cons e t ih =>
    intro x
    obtain ⟨k, r⟩ := e
    rw [List.map_cons]
    by_cases hki : k = i
    · rw [show (if (k, r).1 = i then ((k, r).1, (k, r).2.erase j) else (k, r)) = (k, r.erase j)
        from by rw [if_pos hki]]
      unfold alook
      by_cases hxk : k = x
      · have hxi : x = i := hxk.symm.trans hki
        rw [if_pos hxk, if_pos hxi, if_pos hxk]
        rfl
      · simp only [if_neg hxk]
        rw [ih]
    · rw [show (if (k, r).1 = i then ((k, r).1, (k, r).2.erase j) else (k, r)) = (k, r)
        from by rw [if_neg hki]]
      unfold alook
      by_cases hxk : k = x
      · have hxi : x ≠ i := fun h => hki (hxk.trans h)
        simp only [if_pos hxk, if_neg hxi]
      · simp only [if_neg hxk]
        rw [ih]

/-- Row contents through the one row rewrite done by an entry pop. -/
theorem rowOf_popmap (M : WM) (i j x : String) :
    rowOf (M.map fun rc => if rc.1 = i then (rc.1, rc.2.erase j) else rc) x =
      if x = i then (rowOf M x).erase j else rowOf M x := by
  unfold rowOf
  rw [alook_popmap]
  by_cases hx : x = i
  · rw [if_pos hx, if_pos hx]
    cases alook M x <;> rfl
  · rw [if_neg hx, if_neg hx]

/-- The pop of a present cell succeeds and rewrites exactly one row. -/
theorem popEntry_ok (M : WM) (i j : String) (r : List String)
    (ha : alook M i = some r) (hj : j ∈ r) :
    popEntry M i j = .ok (M.map fun rc => if rc.1 = i then (rc.1, rc.2.erase j) else rc) := by
  unfold popEntry
  rw [ha]
  show (if j ∈ r then _ else Res.err PyErr.keyError) = _
  rw [if_pos hj]

/-- A pop does not change the row keys. -/
theorem keys_popmap (M : WM) (i j : String) :
    (M.map fun rc => if rc.1 = i then (rc.1, rc.2.erase j) else rc).map Prod.fst =
      M.map Prod.fst := by
  rw [List.map_map]
  apply List.map_congr_left
  intro rc _
  show (if rc.1 = i then (rc.1, rc.2.erase j) else rc).1 = rc.1
  split <;> rfl

/-- A pop of a present cell removes exactly one cell of the count. -/
theorem measWM_popmap (i j : String) : ∀ (M : WM) (r : List String),
    (M.map Prod.fst).Nodup → (i, r) ∈ M → j ∈ r →
    measWM (M.map fun rc => if rc.1 = i then (rc.1, rc.2.erase j) else rc) + 1 = measWM M := by
  intro M
  induction M with
  | nil =>
    intro r _ h
    cases h
  | cons e t ih =>
    intro r hnd hm hj
    obtain ⟨k, w⟩ := e
    simp only [List.map_cons, List.nodup_cons] at hnd
    rcases List.mem_cons.1 hm with he | ht
    · rw [Prod.mk.injEq] at he
      obtain ⟨hik, hrw⟩ := he
      have htid : t.map (fun rc => if rc.1 = i then (rc.1, rc.2.erase j) else rc) = t := by
        rw [show t.map (fun rc => if rc.1 = i then (rc.1, rc.2.erase j) else rc) =
            t.map id from List.map_congr_left fun rc hrc => by
          have hri : rc.1 ≠ i := fun hri =>
            hnd.1 (List.mem_map.2 ⟨rc, hrc, by rw [hri, ← hik]⟩)
          exact if_neg hri]
        exact List.map_id t
      rw [List.map_cons, htid]
      rw [show (if (k, w).1 = i then ((k, w).1, (k, w).2.erase j) else (k, w)) = (k, w.erase j)
        from by rw [if_pos (by rw [← hik] : (k, w).1 = i)]]
      show (w.erase j).length + measWM t + 1 = w.length + measWM t
      have hjw : j ∈ w := by rw [← hrw]; exact hj
      have hle : (w.erase j).length = w.length - 1 := List.length_erase_of_mem hjw
      have hw1 : 1 ≤ w.length := List.length_pos.2 (List.ne_nil_of_mem hjw)
      omega
    · have hki : (k, w).1 ≠ i := by
        intro he2
        exact hnd.1 (List.mem_map.2 ⟨(i, r), ht, he2.symm⟩)
      rw [List.map_cons]
      rw [show (if (k, w).1 = i then ((k, w).1, (k, w).2.erase j) else (k, w)) = (k, w)
        from by rw [if_neg hki]]
      show w.length + measWM (t.map _) + 1 = w.length + measWM t
      have hih := ih r hnd.2 ht hj
      omega

/-- An id among the row keys owns the row the lookup returns. -/
theorem rowOf_mem (M : WM) (x : String) (hnd : (M.map Prod.fst).Nodup)
    (hx : x ∈ M.map Prod.fst) : (x, rowOf M x) ∈ M := by
  obtain ⟨e, he, hex⟩ := List.mem_map.1 hx
  obtain ⟨k, r⟩ := e
  have hkx : k = x := hex
  subst hkx
  have ha : alook M k = some r := alook_of_mem_nodup M k r hnd he
  unfold rowOf
  rw [ha]
  exact he

/-- An id among the row keys looks up exactly its row. -/
theorem alook_rowOf (M : WM) (x : String) (hnd : (M.map Prod.fst).Nodup)
    (hx : x ∈ M.map Prod.fst) : alook M x = some (rowOf M x) :=
  alook_of_mem_nodup M x (rowOf M x) hnd (rowOf_mem M x hnd hx)

/-- Cell membership after the double pop of one selected pair. -/
theorem mem_rowOf_pop2 (L : List String) (M : WM) (hL : L.Nodup) (hM : WMInv L M)
    (mi mj : String) (hne : mi ≠ mj) (x y : String) :
    y ∈ rowOf ((M.map fun rc => if rc.1 = mi then (rc.1, rc.2.erase mj) else rc).map
        fun rc => if rc.1 = mj then (rc.1, rc.2.erase mi) else rc) x ↔
      y ∈ rowOf M x ∧ ¬(x = mi ∧ y = mj) ∧ ¬(x = mj ∧ y = mi) := by
  have hrownd : (rowOf M x).Nodup := by
    unfold rowOf
    cases ha : alook M x with
    | none => exact List.nodup_nil
    | some r =>
      have hmem := mem_of_alook M x r ha
      exact ((hM.2.1 _ hmem).1.nodup hL)
  rw [rowOf_popmap, rowOf_popmap]
  by_cases hxj : x = mj
  · rw [if_pos hxj, if_neg (by rw [hxj]; exact fun h => hne h.symm)]
    rw [List.Nodup.mem_erase_iff hrownd]
    constructor
    · rintro ⟨hymi, hy⟩
      exact ⟨hy, fun h2 => hne (h2.1.symm.trans hxj), fun h2 => hymi h2.2⟩
    · rintro ⟨hy, _, h3⟩
      exact ⟨fun he => h3 ⟨hxj, he⟩, hy⟩
  · rw [if_neg hxj]
    by_cases hxi : x = mi
    · rw [if_pos hxi]
      rw [List.Nodup.mem_erase_iff hrownd]
      constructor
      · rintro ⟨hymj, hy⟩
        exact ⟨hy, fun h2 => hymj h2.2, fun h2 => hxj h2.1⟩
      · rintro ⟨hy, h2, _⟩
        exact ⟨fun he => h2 ⟨hxi, he⟩, hy⟩
    · rw [if_neg hxi]
      constructor
      · intro hy
        exact ⟨hy, fun h2 => hxi h2.1, fun h2 => hxj h2.1⟩
      · intro h
        exact h.1

/-- The double pop of a distinct selected pair preserves the working
matrix invariant. -/
theorem WMInv_pop2 (L : List String) (M : WM) (hL : L.Nodup) (hM : WMInv L M)
    (mi mj : String) (hne : mi ≠ mj) :
    WMInv L ((M.map fun rc => if rc.1 = mi then (rc.1, rc.2.erase mj) else rc).map
      fun rc => if rc.1 = mj then (rc.1, rc.2.erase mi) else rc) := by
  refine ⟨?_, ?_, ?_⟩
  · rw [keys_popmap, keys_popmap]
    exact hM.1
  · intro rc' hrc'
    rw [List.mem_map] at hrc'
    obtain ⟨rc1, hrc1, hrc1e⟩ := hrc'
    rw [List.mem_map] at hrc1
    obtain ⟨rc, hrc, hrce⟩ := hrc1
    have hbase := hM.2.1 rc hrc
    by_cases h1 : rc.1 = mi
    · have hr1 : rc1 = (rc.1, rc.2.erase mj) := by rw [← hrce, if_pos h1]
      have h2 : rc1.1 ≠ mj := by rw [hr1]; rw [h1]; exact hne
      have hr2 : rc' = (rc.1, rc.2.erase mj) := by rw [← hrc1e, if_neg h2, hr1]
      rw [hr2]
      refine ⟨(List.erase_sublist mj rc.2).trans hbase.1, ?_⟩
      exact List.mem_erase_of_ne (by rw [h1]; exact hne) |>.2 hbase.2
    · have hr1 : rc1 = rc := by rw [← hrce, if_neg h1]
      by_cases h2 : rc.1 = mj
      · have hr2 : rc' = (rc.1, rc.2.erase mi) := by rw [← hrc1e, hr1, if_pos h2]
        rw [hr2]
        refine ⟨(List.erase_sublist mi rc.2).trans hbase.1, ?_⟩
        exact List.mem_erase_of_ne (by rw [h2]; exact hne.symm) |>.2 hbase.2
      · have hr2 : rc' = rc := by rw [← hrc1e, hr1, if_neg h2]
        rw [hr2]
        exact hbase
  · intro i hi j hj
    rw [mem_rowOf_pop2 L M hL hM mi mj hne i j, mem_rowOf_pop2 L M hL hM mi mj hne j i]
    have hsym := hM.2.2 i hi j hj
    constructor
    · rintro ⟨hy, h2, h3⟩
      exact ⟨hsym.1 hy, fun h4 => h3 ⟨h4.2, h4.1⟩, fun h4 => h2 ⟨h4.2, h4.1⟩⟩
    · rintro ⟨hy, h2, h3⟩
      exact ⟨hsym.2 hy, fun h4 => h3 ⟨h4.2, h4.1⟩, fun h4 => h2 ⟨h4.2, h4.1⟩⟩

/-- The double pop of a present symmetric pair removes exactly two
cells. -/
theorem measWM_pop2 (L : List String) (M : WM) (hL : L.Nodup) (hM : WMInv L M)
    (mi mj : String) (hmi : mi ∈ L) (hmj : mj ∈ L) (hne : mi ≠ mj)
    (hmjr : mj ∈ rowOf M mi) (hmir : mi ∈ rowOf M mj) :
    measWM ((M.map fun rc => if rc.1 = mi then (rc.1, rc.2.erase mj) else rc).map
      fun rc => if rc.1 = mj then (rc.1, rc.2.erase mi) else rc) + 2 = measWM M := by
  have hndk : (M.map Prod.fst).Nodup := by rw [hM.1]; exact hL
  have hmik : mi ∈ M.map Prod.fst := by rw [hM.1]; exact hmi
  have hmjk : mj ∈ M.map Prod.fst := by rw [hM.1]; exact hmj
  have h1 := measWM_popmap mi mj M (rowOf M mi) hndk (rowOf_mem M mi hndk hmik) hmjr
  have hndk1 : ((M.map fun rc => if rc.1 = mi then (rc.1, rc.2.erase mj) else rc).map
      Prod.fst).Nodup := by rw [keys_popmap]; exact hndk
  have hmjk1 : mj ∈ (M.map fun rc => if rc.1 = mi then (rc.1, rc.2.erase mj) else rc).map
      Prod.fst := by rw [keys_popmap]; exact hmjk
  have hrow1 : rowOf (M.map fun rc => if rc.1 = mi then (rc.1, rc.2.erase mj) else rc) mj =
      rowOf M mj := by
    rw [rowOf_popmap, if_neg (fun h => hne h.symm)]
  have h2 := measWM_popmap mj mi (M.map fun rc => if rc.1 = mi then (rc.1, rc.2.erase mj) else rc)
    (rowOf (M.map fun rc => if rc.1 = mi then (rc.1, rc.2.erase mj) else rc) mj) hndk1
    (rowOf_mem _ mj hndk1 hmjk1) (by rw [hrow1]; exact hmir)
  omega

/-- Under the cluster invariant with duplicate free ids the concatenated
members are duplicate free. -/
theorem GInv_flat_nodup (L : List String) (c : Groups) (hL : L.Nodup) (hG : GInv L c) :
    (c.flatMap Prod.snd).Nodup := by
  have h2 : ((c.flatMap Prod.snd : List String) : Multiset String).Nodup := by
    rw [hG.2.2]
    exact Multiset.coe_nodup.2 hL
  exact Multiset.coe_nodup.1 h2

/-- With duplicate free concatenated members an id determines its
entry. -/
theorem entry_unique (c : Groups) (x : String) (hnd : (c.flatMap Prod.snd).Nodup)
    (e1 e2 : ℕ × List String) (h1 : e1 ∈ c) (h2 : e2 ∈ c)
    (hx1 : x ∈ e1.2) (hx2 : x ∈ e2.2) : e1 = e2 := by
  obtain ⟨l1, e0, l2, hsp, hx0, hL1, hL2⟩ :=
    exists_unique_entry c x hnd (List.mem_flatMap.2 ⟨e1, h1, hx1⟩)
  have he1 : e1 = e0 := by
    rw [hsp] at h1
    rcases List.mem_append.1 h1 with h | h
    · exact absurd hx1 (hL1 e1 h)
    · rcases List.mem_cons.1 h with h | h
      · exact h
      · exact absurd hx1 (hL2 e1 h)
  have he2 : e2 = e0 := by
    rw [hsp] at h2
    rcases List.mem_append.1 h2 with h | h
    · exact absurd hx2 (hL1 e2 h)
    · rcases List.mem_cons.1 h with h | h
      · exact h
      · exact absurd hx2 (hL2 e2 h)
  rw [he1, he2]

/-- Under the cluster invariant every id locates its containing entry. -/
theorem cGroupOf_entry (L : List String) (c : Groups) (hL : L.Nodup) (hG : GInv L c)
    (x : String) (hx : x ∈ L) :
    ∃ e, e ∈ c ∧ x ∈ e.2 ∧ cGroupOf c x = some e.1 := by
  have hnd := GInv_flat_nodup L c hL hG
  have hxf : x ∈ c.flatMap Prod.snd := by
    have hxm : x ∈ ((c.flatMap Prod.snd : List String) : Multiset String) := by
      rw [hG.2.2]
      exact Multiset.mem_coe.2 hx
    exact Multiset.mem_coe.1 hxm
  obtain ⟨l1, e, l2, hsp, hx0, hL1, hL2⟩ := exists_unique_entry c x hnd hxf
  exact ⟨e, by rw [hsp]; simp, hx0, cGroupOf_eq c x l1 e l2 hsp hx0 hL2⟩

/-- The merge decision puts the selected ids in one group and never
separates ids already grouped together. -/
theorem sameGroup_groupStep (L : List String) (c : Groups) (hL : L.Nodup) (hG : GInv L c)
    (mi mj : String) (hmi : mi ∈ L) (hmj : mj ∈ L) :
    sameGroup (groupStep c mi mj) mi mj ∧
    ∀ x y, sameGroup c x y → sameGroup (groupStep c mi mj) x y := by
  obtain ⟨ei, hei, hxi, hgi⟩ := cGroupOf_entry L c hL hG mi hmi
  obtain ⟨ej, hej, hxj, hgj⟩ := cGroupOf_entry L c hL hG mj hmj
  rw [groupStep_eq c mi mj ei.1 ej.1 hgi hgj]
  by_cases hk : ei.1 = ej.1
  · rw [if_pos hk]
    have heq : ei = ej := key_unique c hG.1 ei hei ej hej hk
    exact ⟨⟨ei, hei, hxi, heq ▸ hxj⟩, fun x y h => h⟩
  · rw [if_neg hk]
    have heic : (ei.1, ei.2) ∈ c := by rw [Prod.mk.eta]; exact hei
    have hejc : (ej.1, ej.2) ∈ c := by rw [Prod.mk.eta]; exact hej
    have hmm := mem_mergeGroups c ei.1 ej.1 ei.2 ej.2 hG.1 heic hejc hk
    have hmrg : (ei.1, ei.2 ++ ej.2) ∈ mergeGroups c ei.1 ej.1 :=
      (hmm _).2 (Or.inl rfl)
    constructor
    · exact ⟨(ei.1, ei.2 ++ ej.2), hmrg, by simp [hxi], by simp [hxj]⟩
    · rintro x y ⟨e, he, hxe, hye⟩
      by_cases h1 : e.1 = ei.1
      · have heq : e = ei := key_unique c hG.1 e he ei hei h1
        subst heq
        exact ⟨(e.1, e.2 ++ ej.2), hmrg, by simp [hxe], by simp [hye]⟩
      · by_cases h2 : e.1 = ej.1
        · have heq : e = ej := key_unique c hG.1 e he ej hej h2
          subst heq
          exact ⟨(ei.1, ei.2 ++ e.2), hmrg, by simp [hxe], by simp [hye]⟩
        · exact ⟨e, (hmm e).2 (Or.inr ⟨he, h1, h2⟩), hxe, hye⟩

/-- The merge decision keeps every member list nonempty. -/
theorem groupStep_nonempty (c : Groups) (mi mj : String) (hnd : (c.map Prod.fst).Nodup)
    (hne : ∀ e ∈ c, e.2 ≠ []) : ∀ e ∈ groupStep c mi mj, e.2 ≠ [] := by
  cases hgi : cGroupOf c mi with
  | none =>
    rw [groupStep_eq_none c mi mj (Or.inl hgi)]
    exact hne
  | some h =>
    cases hgj : cGroupOf c mj with
    | none =>
      rw [groupStep_eq_none c mi mj (Or.inr hgj)]
      exact hne
    | some k =>
      rw [groupStep_eq c mi mj h k hgi hgj]
      by_cases hhk : h = k
      · rw [if_pos hhk]
        exact hne
      · rw [if_neg hhk]
        have hh := cGroupOf_mem c mi h hgi
        have hkk := cGroupOf_mem c mj k hgj
        obtain ⟨eh, hehm, hehk⟩ := List.mem_map.1 hh
        obtain ⟨ek, hekm, hekk⟩ := List.mem_map.1 hkk
        have hehc : (h, eh.2) ∈ c := by rw [← hehk, Prod.mk.eta]; exact hehm
        have hekc : (k, ek.2) ∈ c := by rw [← hekk, Prod.mk.eta]; exact hekm
        have hmm := mem_mergeGroups c h k eh.2 ek.2 hnd hehc hekc hhk
        intro e he
        rcases (hmm e).1 he with heq | ⟨hec, _, _⟩
        · rw [heq]
          intro habs
          exact hne (h, eh.2) hehc (by simpa using (List.append_eq_nil.1 habs).1)
        · exact hne e hec

/-- Merging an existing group away shrinks the list by exactly one. -/
theorem mergeGroups_length (c : Groups) (h k : ℕ) (hnd : (c.map Prod.fst).Nodup)
    (hk : k ∈ c.map Prod.fst) :
    (mergeGroups c h k).length + 1 = c.length := by
  have h1 : (mergeGroups c h k).length = ((mergeGroups c h k).map Prod.fst).length :=
    (List.length_map _ _).symm
  rw [h1, mergeGroups_keys, filter_ne_length k (c.map Prod.fst) hnd hk]
  exact List.length_map _ _

/-- The merge decision removes at most one group. -/
theorem groupStep_length (c : Groups) (mi mj : String) (hnd : (c.map Prod.fst).Nodup) :
    c.length ≤ (groupStep c mi mj).length + 1 := by
  cases hgi : cGroupOf c mi with
  | none =>
    rw [groupStep_eq_none c mi mj (Or.inl hgi)]
    omega
  | some h =>
    cases hgj : cGroupOf c mj with
    | none =>
      rw [groupStep_eq_none c mi mj (Or.inr hgj)]
      omega
    | some k =>
      rw [groupStep_eq c mi mj h k hgi hgj]
      by_cases hhk : h = k
      · rw [if_pos hhk]
        omega
      · rw [if_neg hhk]
        rw [← mergeGroups_length c h k hnd (cGroupOf_mem c mj k hgj)]
/-- The merge decision preserves the cluster invariant. -/
theorem GInv_groupStep (L : List String) (c : Groups) (hG : GInv L c)
    (mi mj : String) : GInv L (groupStep c mi mj) := by
  have hp := groupStep_preserves c mi mj hG.1
  exact ⟨hp.1, groupStep_nonempty c mi mj hG.1 hG.2.1, by rw [hp.2]; exact hG.2.2⟩

/-- A nonempty cluster list forces a nonempty id list. -/
theorem GInv_L_ne_nil (L : List String) (c : Groups) (hG : GInv L c) (hc : c ≠ []) :
    L ≠ [] := by
  cases c with
  | nil => exact absurd rfl hc
  | cons e t =>
    obtain ⟨x, hx⟩ := List.exists_mem_of_ne_nil e.2 (hG.2.1 e (List.mem_cons_self e t))
    have hxf : x ∈ (e :: t).flatMap Prod.snd := List.mem_flatMap.2 ⟨e, List.mem_cons_self e t, hx⟩
    have hxL : x ∈ L := by
      have hxm : x ∈ ((((e :: t) : Groups).flatMap Prod.snd : List String) : Multiset String) :=
        Multiset.mem_coe.2 hxf
      rw [hG.2.2] at hxm
      exact Multiset.mem_coe.1 hxm
    exact List.ne_nil_of_mem hxL

/-- A nonempty id list forces a nonempty cluster list. -/
theorem GInv_c_ne_nil (L : List String) (c : Groups) (hG : GInv L c) (hL : L ≠ []) :
    c ≠ [] := by
  intro hc
  subst hc
  have : ((([] : Groups).flatMap Prod.snd : List String) : Multiset String) =
      (L : Multiset String) := hG.2.2
  simp only [List.flatMap_nil] at this
  have hL0 : (L : Multiset String) = 0 := this.symm
  rw [Multiset.coe_eq_zero] at hL0
  exact hL hL0

/-- Sequencing a map whose entries are all present flattens to the map of
the carried values. -/
theorem optSeq_map_some {α β : Type} (f : α → Option β) (g0 : α → β) :
    ∀ l : List α, (∀ a ∈ l, f a = some (g0 a)) → optSeq (l.map f) = some (l.map g0) := by
  intro l
  induction l with
  | nil =>
    intro _
    rfl
  | cons a t ih =>
    intro h
    rw [List.map_cons, List.map_cons, h a (List.mem_cons_self a t)]
    show (optSeq (t.map f)).map (g0 a :: ·) = some (g0 a :: t.map g0)
    rw [ih fun x hx => h x (List.mem_cons_of_mem a hx)]
    rfl

/-- A sublist of a duplicate free list containing the head starts with
it. -/
theorem sublist_head_mem {a : String} {t l : List String} (hs : l.Sublist (a :: t))
    (ha : a ∈ l) (hat : a ∉ t) : l.head? = some a := by
  cases hs with
  | cons _ h => exact absurd (h.subset ha) hat
  | cons₂ _ h => rfl

/-- Every member of a cluster list member list is an id of the
invariant's id list. -/
theorem GInv_mem_L (L : List String) (c : Groups) (hG : GInv L c) :
    ∀ x ∈ c.flatMap Prod.snd, x ∈ L := by
  intro x hx
  have hxm : x ∈ ((c.flatMap Prod.snd : List String) : Multiset String) := Multiset.mem_coe.2 hx
  rw [hG.2.2] at hxm
  exact Multiset.mem_coe.1 hxm

/-- Under the loop invariants the pair selection succeeds and names two
distinct ids facing each other in the working matrix: a positive maximum
beats the zero diagonal, and in an all zero matrix the first row's last
key differs from the row key because more than one group remains. -/
theorem selection_ok (L : List String) (v : String → String → ℚ) (M : WM) (c : Groups)
    (g : ℕ) (hL : L.Nodup) (hM : WMInv L M) (hG : GInv L c) (hX : XInv L M c)
    (hnn : ∀ i ∈ L, ∀ j ∈ L, 0 ≤ v i j) (hdiag : ∀ i ∈ L, v i i = 0)
    (hlc : loopCond g M c = true) (hg1 : 1 ≤ g) :
    ∃ mi mj, globalPick v M = .ok (mi, mj) ∧ mi ∈ L ∧ mj ∈ L ∧ mi ≠ mj ∧
      mj ∈ rowOf M mi ∧ mi ∈ rowOf M mj := by
  simp only [loopCond, Bool.and_eq_true, decide_eq_true_eq] at hlc
  obtain ⟨hgc, _⟩ := hlc
  have hc2 : 2 ≤ c.length := by omega
  have hcne : c ≠ [] := by
    intro h
    rw [h] at hc2
    simp at hc2
  have hLne : L ≠ [] := GInv_L_ne_nil L c hG hcne
  have hMne : M ≠ [] := by
    intro h
    apply hLne
    rw [← hM.1, h]
    rfl
  have hndk : (M.map Prod.fst).Nodup := by rw [hM.1]; exact hL
  have hrows := hM.2.1
  have hmap : ∀ rc ∈ M, ((rowPick v rc.1 rc.2).map fun j => (rc.1, j)) =
      some (rc.1, (rowPick v rc.1 rc.2).getD "") := by
    intro rc hrc
    cases hrw : rc.2 with
    | nil =>
      have h2 := (hrows rc hrc).2
      rw [hrw] at h2
      cases h2
    | cons kk ks => rfl
  have hpicks : picksOf v M =
      some (M.map fun rc => (rc.1, (rowPick v rc.1 rc.2).getD "")) := by
    unfold picksOf
    exact optSeq_map_some _ _ M hmap
  obtain ⟨rc0, Mt, hMsplit⟩ : ∃ rc0 Mt, M = rc0 :: Mt := by
    cases M with
    | nil => exact absurd rfl hMne
    | cons a t => exact ⟨a, t, rfl⟩
  subst hMsplit
  obtain ⟨pr, hpr⟩ : ∃ pr, globalPick v (rc0 :: Mt) = .ok pr := by
    unfold globalPick
    rw [hpicks, List.map_cons]
    exact ⟨_, rfl⟩
  obtain ⟨l1, l2, hsplit, hmax, hfirst⟩ :=
    globalPick_isFirstArgmax v (rc0 :: Mt) _ pr hpicks hpr
  have hprmem : pr ∈ (rc0 :: Mt).map fun rc => (rc.1, (rowPick v rc.1 rc.2).getD "") := by
    rw [hsplit]
    simp
  obtain ⟨rc, hrcM, hrcpr⟩ := List.mem_map.1 hprmem
  have hmi_eq : pr.1 = rc.1 := by rw [← hrcpr]
  obtain ⟨kk, ks, hrw⟩ : ∃ kk ks, rc.2 = kk :: ks := by
    cases hrw : rc.2 with
    | nil =>
      have h2 := (hrows rc hrcM).2
      rw [hrw] at h2
      cases h2
    | cons a t => exact ⟨a, t, rfl⟩
  have hpick : rowPick v rc.1 rc.2 = some pr.2 := by
    rw [← hrcpr]
    show rowPick v rc.1 rc.2 = some ((rowPick v rc.1 rc.2).getD "")
    rw [hrw]
    rfl
  obtain ⟨l1h, l2h, hs2, hmax2, hlast2⟩ := rowPick_isLastArgmax v rc.1 rc.2 pr.2 hpick
  have hmjrow : pr.2 ∈ rc.2 := by
    rw [hs2]
    simp
  have hrc1 : (rc.1, rc.2) ∈ rc0 :: Mt := by rw [Prod.mk.eta]; exact hrcM
  have harow : rowOf (rc0 :: Mt) rc.1 = rc.2 := by
    unfold rowOf
    rw [alook_of_mem_nodup _ rc.1 rc.2 hndk hrc1]
    rfl
  have hrcL : rc.1 ∈ L := by
    rw [← hM.1]
    exact List.mem_map.2 ⟨rc, hrcM, rfl⟩
  have hmiL : pr.1 ∈ L := by
    rw [hmi_eq]
    exact hrcL
  have hmjL : pr.2 ∈ L := (hrows rc hrcM).1.subset hmjrow
  have hmjrowM : pr.2 ∈ rowOf (rc0 :: Mt) pr.1 := by
    rw [hmi_eq, harow]
    exact hmjrow
  have h00 := hmax2 rc.1 (hrows rc hrcM).2
  rw [hdiag rc.1 hrcL] at h00
  have h0le : 0 ≤ v pr.1 pr.2 := by
    rw [hmi_eq]
    exact h00
  have hne : pr.1 ≠ pr.2 := by
    rcases eq_or_lt_of_le h0le with hzero | hpos
    · intro hcontra
      have hpsnn : ∀ q ∈ (rc0 :: Mt).map fun rc => (rc.1, (rowPick v rc.1 rc.2).getD ""),
          0 ≤ v q.1 q.2 := by
        intro q hq
        obtain ⟨rc2, hrc2, hq2⟩ := List.mem_map.1 hq
        obtain ⟨kk2, ks2, hrw2⟩ : ∃ kk ks, rc2.2 = kk :: ks := by
          cases hrw2 : rc2.2 with
          | nil =>
            have h2 := (hrows rc2 hrc2).2
            rw [hrw2] at h2
            cases h2
          | cons a t => exact ⟨a, t, rfl⟩
        have hpick2 : rowPick v rc2.1 rc2.2 = some q.2 := by
          rw [← hq2]
          show rowPick v rc2.1 rc2.2 = some ((rowPick v rc2.1 rc2.2).getD "")
          rw [hrw2]
          rfl
        obtain ⟨la, lb, hsp3, hmax3, _⟩ := rowPick_isLastArgmax v rc2.1 rc2.2 q.2 hpick2
        have hq1 : q.1 = rc2.1 := by rw [← hq2]
        have hrc2L : rc2.1 ∈ L := by
          rw [← hM.1]
          exact List.mem_map.2 ⟨rc2, hrc2, rfl⟩
        have h002 := hmax3 rc2.1 (hrows rc2 hrc2).2
        rw [hdiag rc2.1 hrc2L] at h002
        rw [hq1]
        exact h002
      have hl1nil : l1 = [] := by
        cases hl1 : l1 with
        | nil => rfl
        | cons a t1 =>
          have haps : a ∈ (rc0 :: Mt).map fun rc => (rc.1, (rowPick v rc.1 rc.2).getD "") := by
            rw [hsplit, hl1]
            simp
          have hlt : v a.1 a.2 < v pr.1 pr.2 :=
            hfirst a (by rw [hl1]; exact List.mem_cons_self a t1)
          rw [← hzero] at hlt
          exact absurd hlt (not_lt.2 (hpsnn a haps))
      have hpr0 : pr = (rc0.1, (rowPick v rc0.1 rc0.2).getD "") := by
        rw [hl1nil, List.nil_append, List.map_cons] at hsplit
        exact (List.cons.injEq _ _ _ _ ▸ hsplit).1.symm
      have hrc10 : rc.1 = rc0.1 := by
        rw [← hmi_eq, hpr0]
      have hLshape : L = rc0.1 :: Mt.map Prod.fst := by
        rw [← hM.1, List.map_cons]
      have hnotl : rc0.1 ∉ Mt.map Prod.fst := by
        have hnd2 : (rc0.1 :: Mt.map Prod.fst).Nodup := by
          rw [← hLshape]
          exact hL
        exact (List.nodup_cons.1 hnd2).1
      have hsubL : rc.2.Sublist (rc0.1 :: Mt.map Prod.fst) := by
        rw [← hLshape]
        exact (hrows rc hrcM).1
      have hhead : rc.2.head? = some rc0.1 :=
        sublist_head_mem hsubL (by rw [← hrc10]; exact (hrows rc hrcM).2) hnotl
      have hl2nil : l2h = [] := by
        cases hl2 : l2h with
        | nil => rfl
        | cons b t2 =>
          have hbrow : b ∈ rc.2 := by
            rw [hs2, hl2]
            simp
          have hblt := hlast2 b (by rw [hl2]; exact List.mem_cons_self b t2)
          have hveq : v rc.1 pr.2 = 0 := by
            rw [← hmi_eq, ← hzero]
          rw [hveq] at hblt
          have hbL : b ∈ L := (hrows rc hrcM).1.subset hbrow
          exact absurd hblt (not_lt.2 (hnn rc.1 hrcL b hbL))
      rw [hl2nil] at hs2
      have hpr2rc1 : pr.2 = rc.1 := hcontra.symm.trans hmi_eq
      have hndrow : rc.2.Nodup := hL.sublist (hrows rc hrcM).1
      cases hl1h : l1h with
      | nil =>
        rw [hl1h, List.nil_append] at hs2
        have hroweq : rc.2 = [rc.1] := by
          rw [hs2, hpr2rc1]
        have hallsame : ∀ y ∈ L, sameGroup c rc.1 y ∨ y = rc.1 := by
          intro y hy
          by_cases hsg : sameGroup c rc.1 y
          · exact Or.inl hsg
          · right
            have hyrow := hX rc.1 hrcL y hy hsg
            rw [harow, hroweq] at hyrow
            simpa using hyrow
        obtain ⟨e1, c1, hc1⟩ : ∃ e t, c = e :: t := by
          cases c with
          | nil => exact absurd rfl hcne
          | cons a t => exact ⟨a, t, rfl⟩
        obtain ⟨e2, crest, hc2s⟩ : ∃ e t, c1 = e :: t := by
          cases hcc : c1 with
          | nil =>
            rw [hc1, hcc] at hc2
            simp at hc2
          | cons a t => exact ⟨a, t, rfl⟩
        have he1c : e1 ∈ c := by
          rw [hc1]
          exact List.mem_cons_self _ _
        have he2c : e2 ∈ c := by
          rw [hc1, hc2s]
          simp
        obtain ⟨x1, hx1⟩ := List.exists_mem_of_ne_nil e1.2 (hG.2.1 e1 he1c)
        obtain ⟨x2, hx2⟩ := List.exists_mem_of_ne_nil e2.2 (hG.2.1 e2 he2c)
        have flatnd := GInv_flat_nodup L c hL hG
        have hx1L : x1 ∈ L := GInv_mem_L L c hG x1 (List.mem_flatMap.2 ⟨e1, he1c, hx1⟩)
        have hx2L : x2 ∈ L := GInv_mem_L L c hG x2 (List.mem_flatMap.2 ⟨e2, he2c, hx2⟩)
        have hmie1 : rc.1 ∈ e1.2 := by
          rcases hallsame x1 hx1L with hsg | heq
          · obtain ⟨e, he, hrce, hx1e⟩ := hsg
            have : e = e1 := entry_unique c x1 flatnd e e1 he he1c hx1e hx1
            rw [← this]
            exact hrce
          · rw [heq] at hx1
            exact hx1
        have hmie2 : rc.1 ∈ e2.2 := by
          rcases hallsame x2 hx2L with hsg | heq
          · obtain ⟨e, he, hrce, hx2e⟩ := hsg
            have : e = e2 := entry_unique c x2 flatnd e e2 he he2c hx2e hx2
            rw [← this]
            exact hrce
          · rw [heq] at hx2
            exact hx2
        rw [hc1, hc2s, List.flatMap_cons] at flatnd
        exact List.disjoint_of_nodup_append flatnd hmie1
          (List.mem_flatMap.2 ⟨e2, List.mem_cons_self _ _, hmie2⟩)
      | cons a t1 =>
        rw [hl1h] at hs2
        have hheada : rc.2.head? = some a := by
          rw [hs2]
          rfl
        have harc : a = rc.1 := by
          rw [hhead] at hheada
          rw [Option.some_inj] at hheada
          rw [← hheada, hrc10]
        rw [hs2] at hndrow
        have hdisj := List.disjoint_of_nodup_append hndrow
        have hm1 : rc.1 ∈ a :: t1 := by
          rw [← harc]
          exact List.mem_cons_self a t1
        have hm2 : rc.1 ∈ [pr.2] := by
          rw [← hpr2rc1]
          exact List.mem_singleton.2 rfl
        exact hdisj hm1 hm2
    · intro hcontra
      rw [hcontra, hdiag pr.2 hmjL] at hpos
      exact lt_irrefl 0 hpos
  refine ⟨pr.1, pr.2, ?_, hmiL, hmjL, hne, hmjrowM, (hM.2.2 pr.1 hmiL pr.2 hmjL).1 hmjrowM⟩
  rw [Prod.mk.eta]
  exact hpr

/-- The double pop of the selected pair together with its merge decision
preserves the cross pair invariant: the selected ids end up grouped
together, so only cells of grouped pairs disappear. -/
theorem XInv_pop2 (L : List String) (M : WM) (c : Groups) (hL : L.Nodup)
    (hM : WMInv L M) (hG : GInv L c) (hX : XInv L M c)
    (mi mj : String) (hmi : mi ∈ L) (hmj : mj ∈ L) (hne : mi ≠ mj) :
    XInv L ((M.map fun rc => if rc.1 = mi then (rc.1, rc.2.erase mj) else rc).map
      fun rc => if rc.1 = mj then (rc.1, rc.2.erase mi) else rc) (groupStep c mi mj) := by
  intro i hi j hj hns
  obtain ⟨hsame, hmono⟩ := sameGroup_groupStep L c hL hG mi mj hmi hmj
  have hns_c : ¬ sameGroup c i j := fun h => hns (hmono i j h)
  have hrow := hX i hi j hj hns_c
  rw [mem_rowOf_pop2 L M hL hM mi mj hne i j]
  refine ⟨hrow, ?_, ?_⟩
  · rintro ⟨rfl, rfl⟩
    exact hns hsame
  · rintro ⟨rfl, rfl⟩
    obtain ⟨e, he, h1, h2⟩ := hsame
    exact hns ⟨e, he, h2, h1⟩

/-- The grouping loop under the invariants: with a nonnegative matrix, a
zero diagonal and enough fuel it returns normally with exactly the
requested number of groups. -/
theorem gLoop_count (v : String → String → ℚ) (g : ℕ) (L : List String)
    (hL : L.Nodup) (hg1 : 1 ≤ g)
    (hnn : ∀ i ∈ L, ∀ j ∈ L, 0 ≤ v i j) (hdiag : ∀ i ∈ L, v i i = 0) :
    ∀ fuel M c, WMInv L M → GInv L c → XInv L M c → measWM M ≤ 2 * fuel →
      g ≤ c.length →
      ∃ c2, gLoop v g fuel M c = .ok c2 ∧ c2.length = g := by
  intro fuel
  induction fuel with
  | zero =>
    intro M c hM hG hX hmeas hgc
    exfalso
    have hmz : measWM M = 0 := by omega
    have hMnil : M = [] := by
      cases hMc : M with
      | nil => rfl
      | cons rc Mt =>
        rw [hMc] at hmz
        have hd := hM.2.1 rc (by rw [hMc]; exact List.mem_cons_self rc Mt)
        have hlen : 1 ≤ rc.2.length := List.length_pos.2 (List.ne_nil_of_mem hd.2)
        have : measWM (rc :: Mt) = rc.2.length + measWM Mt := rfl
        omega
    have hLnil : L = [] := by
      rw [← hM.1, hMnil]
      rfl
    have hcnil : c = [] := by
      by_contra hc
      exact (GInv_L_ne_nil L c hG hc) hLnil
    rw [hcnil] at hgc
    simp at hgc
    omega
  | succ fuel ih =>
    intro M c hM hG hX hmeas hgc
    by_cases hlc : loopCond g M c = true
    · obtain ⟨mi, mj, hgp, hmiL, hmjL, hne, hmjrow, hmirow⟩ :=
        selection_ok L v M c g hL hM hG hX hnn hdiag hlc hg1
      have hndk : (M.map Prod.fst).Nodup := by rw [hM.1]; exact hL
      have hmik : mi ∈ M.map Prod.fst := by rw [hM.1]; exact hmiL
      have hmjk1 : mj ∈ (M.map fun rc => if rc.1 = mi then (rc.1, rc.2.erase mj) else rc).map
          Prod.fst := by
        rw [keys_popmap, hM.1]
        exact hmjL
      have hndk1 : ((M.map fun rc => if rc.1 = mi then (rc.1, rc.2.erase mj) else rc).map
          Prod.fst).Nodup := by
        rw [keys_popmap]
        exact hndk
      have hp1 := popEntry_ok M mi mj (rowOf M mi) (alook_rowOf M mi hndk hmik) hmjrow
      have hrow1 : rowOf (M.map fun rc => if rc.1 = mi then (rc.1, rc.2.erase mj) else rc) mj =
          rowOf M mj := by
        rw [rowOf_popmap, if_neg (fun h => hne h.symm)]
      have hp2 := popEntry_ok (M.map fun rc => if rc.1 = mi then (rc.1, rc.2.erase mj) else rc)
        mj mi _ (alook_rowOf _ mj hndk1 hmjk1) (by rw [hrow1]; exact hmirow)
      have hM2 := WMInv_pop2 L M hL hM mi mj hne
      have hG2 := GInv_groupStep L c hG mi mj
      have hX2 := XInv_pop2 L M c hL hM hG hX mi mj hmiL hmjL hne
      have hmeas2 := measWM_pop2 L M hL hM mi mj hmiL hmjL hne hmjrow hmirow
      have hgc2 : g ≤ (groupStep c mi mj).length := by
        simp only [loopCond, Bool.and_eq_true, decide_eq_true_eq] at hlc
        have hlen := groupStep_length c mi mj hG.1
        omega
      obtain ⟨c2, hc2, hlen2⟩ := ih
        ((M.map fun rc => if rc.1 = mi then (rc.1, rc.2.erase mj) else rc).map
          fun rc => if rc.1 = mj then (rc.1, rc.2.erase mi) else rc)
        (groupStep c mi mj) hM2 hG2 hX2 (by omega) hgc2
      refine ⟨c2, ?_, hlen2⟩
      unfold gLoop
      rw [if_pos hlc, hgp]
      show (match popEntry M mi mj with
        | .err e => Res.err e
        | .ok M1 =>
          match popEntry M1 mj mi with
          | .err e => Res.err e
          | .ok M2 => gLoop v g fuel M2 (groupStep c mi mj)) = Res.ok c2
      rw [hp1]
      show (match popEntry (M.map fun rc => if rc.1 = mi then (rc.1, rc.2.erase mj) else rc)
          mj mi with
        | .err e => Res.err e
        | .ok M2 => gLoop v g fuel M2 (groupStep c mi mj)) = Res.ok c2
      rw [hp2]
      exact hc2
    · have hlcf : loopCond g M c = false := by
        cases hb : loopCond g M c with
        | false => rfl
        | true => exact absurd hb hlc
      refine ⟨c, ?_, ?_⟩
      · unfold gLoop
        rw [if_neg (by rw [hlcf]; exact Bool.false_ne_true)]
      · by_cases hLnil : L = []
        · exfalso
          have hcnil : c = [] := by
            by_contra hc
            exact (GInv_L_ne_nil L c hG hc) hLnil
          rw [hcnil] at hgc
          simp at hgc
          omega
        · have hMne : M ≠ [] := by
            intro h
            apply hLnil
            rw [← hM.1, h]
            rfl
          obtain ⟨rc0, Mt, hMsplit⟩ : ∃ rc0 Mt, M = rc0 :: Mt := by
            cases M with
            | nil => exact absurd rfl hMne
            | cons a t => exact ⟨a, t, rfl⟩
          have hany : M.any (fun rc => !rc.2.isEmpty) = true := by
            rw [hMsplit]
            have hd := hM.2.1 rc0 (by rw [hMsplit]; exact List.mem_cons_self rc0 Mt)
            rw [List.any_eq_true]
            refine ⟨rc0, List.mem_cons_self rc0 Mt, ?_⟩
            cases hr0 : rc0.2 with
            | nil =>
              rw [hr0] at hd
              cases hd.2
            | cons a t => rfl
          have hle : c.length ≤ g := by
            by_contra hgt
            apply hlc
            unfold loopCond
            rw [Bool.and_eq_true, decide_eq_true_eq]
            exact ⟨by omega, hany⟩
          omega

/-- Lookup in the constant row table of the initial working matrix. -/
theorem alook_map_const (R : List String) : ∀ (l : List String) (x : String), x ∈ l →
    alook (l.map fun i => (i, R)) x = some R := by
  intro l
  induction l with
  | nil =>
    intro x hx
    cases hx
  | cons a t ih =>
    intro x hx
    rw [List.map_cons]
    show alook ((a, R) :: t.map fun i => (i, R)) x = some R
    unfold alook
    by_cases hax : a = x
    · rw [if_pos hax]
    · rw [if_neg hax]
      refine ih x ?_
      rcases List.mem_cons.1 hx with h | h
      · exact absurd h.symm hax
      · exact h

/-- Every initial row is the full id list. -/
theorem rowOf_init (gr : HeterogeneousGrouper) (x : String) (hx : x ∈ uids gr) :
    rowOf (initWM gr) x = uids gr := by
  unfold rowOf
  rw [show alook (initWM gr) x = some (uids gr) from by
    unfold initWM
    exact alook_map_const (uids gr) (uids gr) x hx]
  rfl

/-- Summing a constant over a list multiplies it by the length. -/
theorem sum_map_const (c : ℕ) : ∀ l : List String, (l.map fun _ => c).sum = l.length * c := by
  intro l
  induction l with
  | nil => simp
  | cons a t ih =>
    rw [List.map_cons, List.sum_cons, ih, List.length_cons]
    ring

/-- C10.  The claim omits a needed hypothesis, shown by the
counterexample: beyond nonnegative entries the diagonal must be zero.
Amended: with unique ids, a fault free matrix build, nonnegative entries,
a zero diagonal and 1 <= num_groups <= n, the number strategy terminates
without raising and returns exactly num_groups groups. -/
theorem c10_amended (gr : HeterogeneousGrouper) (g : ℕ)
    (hnd : (gr.data.map (·.id)).Nodup) (hok : dmErr gr = none)
    (hnn : ∀ i ∈ uids gr, ∀ j ∈ uids gr, 0 ≤ mval gr i j)
    (hdiag : ∀ i ∈ uids gr, mval gr i i = 0)
    (hg1 : 1 ≤ g) (hgn : g ≤ gr.data.length) :
    ∃ c, group_algorithm_number gr g = .ok c ∧ c.length = g := by
  have hids : uids gr = gr.data.map (·.id) := firstDedup_eq_self _ hnd
  have hL : (uids gr).Nodup := by rw [hids]; exact hnd
  have hWM : WMInv (uids gr) (initWM gr) := by
    refine ⟨?_, ?_, ?_⟩
    · unfold initWM
      rw [show ((uids gr).map fun i => (i, uids gr)).map Prod.fst = (uids gr).map id from by
        rw [List.map_map]
        exact List.map_congr_left fun a _ => rfl]
      exact List.map_id _
    · intro rc hrc
      unfold initWM at hrc
      obtain ⟨i, hi, hie⟩ := List.mem_map.1 hrc
      rw [← hie]
      exact ⟨List.Sublist.refl _, hi⟩
    · intro i hi j hj
      rw [rowOf_init gr i hi, rowOf_init gr j hj]
      exact ⟨fun _ => hi, fun _ => hj⟩
  have hGI : GInv (uids gr) (initGroups gr) := by
    refine ⟨?_, ?_, ?_⟩
    · rw [initGroups_keys]
      exact List.nodup_range _
    · intro e he
      unfold initGroups at he
      have h2 := (List.of_mem_zip he).2
      obtain ⟨it, _, hie⟩ := List.mem_map.1 h2
      rw [← hie]
      simp
    · rw [initGroups_members, hids]
  have hXI : XInv (uids gr) (initWM gr) (initGroups gr) := by
    intro i hi j hj _
    rw [rowOf_init gr i hi]
    exact hj
  have hm : measWM (initWM gr) = ((uids gr).map fun _ => (uids gr).length).sum := by
    unfold measWM initWM
    rw [List.map_map]
    rfl
  have hfuel : measWM (initWM gr) ≤ 2 * ((uids gr).length * (uids gr).length + 1) := by
    rw [hm, sum_map_const]
    generalize (uids gr).length * (uids gr).length = t
    omega
  have hglen : g ≤ (initGroups gr).length := by
    rw [initGroups_length]
    exact hgn
  obtain ⟨c2, hc2, hlen⟩ := gLoop_count (mval gr) g (uids gr) hL hg1 hnn hdiag
    ((uids gr).length * (uids gr).length + 1) (initWM gr) (initGroups gr)
    hWM hGI hXI hfuel hglen
  refine ⟨c2, ?_, hlen⟩
  have hdm : difference_matrix gr =
      .ok ((uids gr).map fun i => (i, (uids gr).map fun j => (j, mval gr i j))) := by
    unfold difference_matrix
    rw [hok]
  unfold group_algorithm_number
  rw [hdm]
  exact hc2

/-- C10 witness: on the three item batch with all off diagonal cells one
and a zero diagonal, two requested groups come back as exactly two
groups. -/
theorem c10_witness :
    ((cexC5.data.map fun x => x.id).Nodup) ∧ dmErr cexC5 = none ∧
    (∀ i ∈ uids cexC5, ∀ j ∈ uids cexC5, 0 ≤ mval cexC5 i j) ∧
    (∀ i ∈ uids cexC5, mval cexC5 i i = 0) ∧ 2 ≤ cexC5.data.length ∧
    ∃ c, group_algorithm_number cexC5 2 = .ok c ∧ c.length = 2 := by
  have hnd : (cexC5.data.map fun x => x.id).Nodup := by simp +decide [cexC5]
  have hok : dmErr cexC5 = none := rfl
  have hnn : ∀ i ∈ uids cexC5, ∀ j ∈ uids cexC5, 0 ≤ mval cexC5 i j := by
    intro i _ j _
    rw [mval_cexC5]
    simp only [vC5]
    split
    · norm_num
    · norm_num
  have hdiag : ∀ i ∈ uids cexC5, mval cexC5 i i = 0 := by
    intro i _
    rw [mval_cexC5]
    simp [vC5]
  have hkn : 2 ≤ cexC5.data.length := by simp [cexC5]
  exact ⟨hnd, hok, hnn, hdiag, hkn,
    c10_amended cexC5 2 hnd hok hnn hdiag (by norm_num) hkn⟩
